import Mathlib

/-!
Verification of the document segmentation engine of the Tilian repository.

The engine lives in two Python modules:
  * `scripts/md_chapter_segment.py` — heuristic markdown chapter segmentation
    (heading confidence scoring, TOC-region detection, sequence validation,
    TOC body anchoring, file slicing);
  * `parsers/chapter_parser.py` — regex-based chapter assembly from a
    markdown file and greedy paragraph splitting of oversized chapters.

Both are embedded shallowly below.  Text is modelled as `List Char` (a Lean
`String` is a structure wrapping `List Char`, so the two are interchangeable
and all definitions evaluate by kernel reduction).  Confidence scores and
`order` values, which Python computes in IEEE binary64 doubles, are
modelled in exact fixed-point arithmetic: a confidence score is stored as
an integer number of hundredths (so `0.8` is `80`), an `order` value as an
integer number of tenths (so chapter `order` 3 is `30` and a chunk's
`order + (k-1)*0.1` is `30 + (k-1)`).  The grid is chosen so that every
comparison these theorems touch (`conf >= 0.8`, `cluster[0] < n * 0.2`,
`order` collisions at `(k-1)*0.1`) is decided exactly as the doubles
decide it.  For almost every reachable combination the double result
rounds to the decimal the grid denotes: `0.6+0.2` and `1.0-0.2` round to
the double nearest 0.8, `10*0.1` rounds to exactly 1.0, every
accumulation of `header_confidence` whose decimal value is 0.8 is that
double exactly, and `first < n*0.2` agrees with `5*first < n` at every
line count `n`.  The one reachable exception is the fallback score
literal `0.7`, whose binary64 value `0.69999999999999995…` lies below the
decimal: after the `+0.1` first-chapter bonus the code holds
`0.7999999999999999`, one ulp short of `0.8`, so the threshold rejects
it.  The grid therefore stores that literal as its truncation `69`
(see `fallbackCands`): `69+10 = 79 < 80` and `69+20 = 89 ≥ 80` then
reproduce the double verdicts on every path that score can take.
The token counter (`tiktoken` in the source) is an external pluggable
capability and is modelled as an arbitrary function `tok : String → Nat`.
-/

set_option maxRecDepth 4000

namespace Tilian

/-! ## Python string primitives

`str.strip` / `re`'s `\s` strip the Unicode whitespace characters; the set
below is Python's `str.isspace` set (which for the code paths modelled here
coincides with `\s`). -/

/-- The characters Python's `str.strip()` removes and `\s` matches. -/
def pyIsSpace (c : Char) : Bool :=
  [' ', '\t', '\n', '\r', '\x0b', '\x0c',
   '\x1c', '\x1d', '\x1e', '\x1f', '\x85', '\xa0',
   '\u1680', '\u2000', '\u2001', '\u2002', '\u2003', '\u2004', '\u2005',
   '\u2006', '\u2007', '\u2008', '\u2009', '\u200a',
   '\u2028', '\u2029', '\u202f', '\u205f', '\u3000'].contains c

/-- Python `\d` (ASCII decimal digits; the documents modelled here contain
no non-ASCII decimal digits). -/
def pyIsDigit (c : Char) : Bool := c.isDigit

/-- Python `\w` / the word characters relevant to `\b`: ASCII alphanumerics,
underscore, and the CJK characters appearing in this code base (Python's
Unicode `\w` also covers them). -/
def pyIsWord (c : Char) : Bool :=
  c.isAlphanum || c = '_' || (0x3400 ≤ c.val && c.val ≤ 0x9fff) ||
  (0x3040 ≤ c.val && c.val ≤ 0x30ff) || (0xff10 ≤ c.val && c.val ≤ 0xff19)

/-- `str.lstrip()`. -/
def pyLStrip (l : List Char) : List Char := l.dropWhile pyIsSpace

/-- `str.rstrip()`. -/
def pyRStrip (l : List Char) : List Char := (l.reverse.dropWhile pyIsSpace).reverse

/-- `str.strip()`. -/
def pyStrip (l : List Char) : List Char := pyRStrip (pyLStrip l)

/-- A line is blank when `line.strip()` is falsy (empty). -/
def isBlank (l : List Char) : Bool := pyStrip l = []

/-- ASCII lowering, as Python `str.lower()` acts on the ASCII range (the only
case-insensitive comparisons in the source involve ASCII letters). -/
def pyLower (l : List Char) : List Char := l.map Char.toLower

/-- Splitting on a single character, Python `str.split(sep)` (all
occurrences, empty pieces kept). -/
def splitOnChar (sep : Char) (l : List Char) : List (List Char) :=
  go l []
where
  go : List Char → List Char → List (List Char)
    | [], acc => [acc.reverse]
    | c :: rest, acc =>
      if c = sep then acc.reverse :: go rest [] else go rest (c :: acc)

/-- Splitting on the two-character separator `"\n\n"` (Python
`content.split('\n\n')`, leftmost non-overlapping occurrences). -/
def splitOnPar (l : List Char) : List (List Char) :=
  go l []
where
  go : List Char → List Char → List (List Char)
    | '\n' :: '\n' :: rest, acc => acc.reverse :: go rest []
    | c :: rest, acc => go rest (c :: acc)
    | [], acc => [acc.reverse]

/-- `'\n'.join(...)` over char lists. -/
def joinNl (ls : List (List Char)) : List Char := List.intercalate ['\n'] ls

/-- `'\n\n'.join(...)` over char lists. -/
def joinPar (ls : List (List Char)) : List Char := List.intercalate ['\n', '\n'] ls

/-- `text.split('\n')`. -/
def linesOf (l : List Char) : List (List Char) := splitOnChar '\n' l

/-- `normalize_text`: `s.replace("\r\n", "\n").replace("\r", "\n")`. -/
def normalizeText : List Char → List Char
  | '\r' :: '\n' :: rest => '\n' :: normalizeText rest
  | '\r' :: rest => '\n' :: normalizeText rest
  | c :: rest => c :: normalizeText rest
  | [] => []

/-- `startswith`, case sensitive. -/
def startsWith (pre l : List Char) : Bool := l.take pre.length = pre

/-- `startswith` under `re.IGNORECASE` for ASCII patterns. -/
def startsWithCI (pre l : List Char) : Bool :=
  pyLower (l.take pre.length) = pyLower pre

/-- Whether `sub` occurs somewhere in `l` (Python `sub in s`). -/
def containsSeq (sub : List Char) : List Char → Bool
  | [] => startsWith sub []
  | c :: rest => startsWith sub (c :: rest) || containsSeq sub rest

/-! ## NumeralResolver

`chinese_numeral_to_int`, `extract_number` (md_chapter_segment.py) and
`extract_chapter_number` (chapter_parser.py).  The two modules contain the
identical `chinese_numeral_to_int`; it is embedded once. -/

/-- The value of a single Chinese digit character (`units` dict). -/
def unitVal : Char → Option Nat
  | '零' => some 0
  | '〇' => some 0
  | '一' => some 1
  | '二' => some 2
  | '三' => some 3
  | '四' => some 4
  | '五' => some 5
  | '六' => some 6
  | '七' => some 7
  | '八' => some 8
  | '九' => some 9
  | _ => none

/-- Python `units.get(key, default)` where `key` is a string: the dict keys
are single characters, so any other string falls back to the default. -/
def unitsGet (l : List Char) (d : Nat) : Nat :=
  match l with
  | [c] => (unitVal c).getD d
  | _ => d

/-- `chinese_numeral_to_int`. -/
def chineseNumeralToInt (s : List Char) : Option Int :=
  if ¬ s.any (fun c => (unitVal c).isSome) ∧ ¬ s.contains '十' then none
  else if s = ['十'] then some 10
  else
    let total : Nat :=
      if s.contains '十' then
        let parts := splitOnChar '十' s
        let left := parts.headD []
        let right := parts.getD 1 []
        unitsGet left 1 * 10 + unitsGet right 0
      else (s.map (fun c => (unitVal c).getD 0)).sum
    if 0 < total then some total else none

/-- Numeric value of an ASCII digit run (`int(...)` on the captured group). -/
def natOfDigits (ds : List Char) : Nat :=
  ds.foldl (fun a c => a * 10 + (c.toNat - '0'.toNat)) 0

/-- `re.search(r"第(\d+)章", title)`: scan for a `第` followed by a digit run
followed by `章` (the digit run is greedy and the class excludes `章`, so
only the maximal run can be followed by `章`). -/
def searchDiZhangArabic : List Char → Option Int
  | [] => none
  | c :: rest =>
    if c = '第' then
      let ds := rest.takeWhile pyIsDigit
      if ds ≠ [] ∧ (rest.drop ds.length).head? = some '章' then
        some (natOfDigits ds)
      else searchDiZhangArabic rest
    else searchDiZhangArabic rest

/-- Membership in the character class `[一二三四五六七八九十零〇]`. -/
def cnClassChar (c : Char) : Bool := (unitVal c).isSome || c = '十'

/-- `re.search(r"第([一二三四五六七八九十零〇]+)章", title)`; returns the
captured numeral group. -/
def searchDiZhangCN : List Char → Option (List Char)
  | [] => none
  | c :: rest =>
    if c = '第' then
      let run := rest.takeWhile cnClassChar
      if run ≠ [] ∧ (rest.drop run.length).head? = some '章' then some run
      else searchDiZhangCN rest
    else searchDiZhangCN rest

/-- `re.search(r"Chapter\s+(\d+)", title, re.IGNORECASE)`. -/
def searchChapterNum : List Char → Option Int
  | [] => none
  | c :: rest =>
    if startsWithCI "chapter".data (c :: rest) then
      let after := (c :: rest).drop 7
      let ws := after.takeWhile pyIsSpace
      let ds := (after.drop ws.length).takeWhile pyIsDigit
      if ws ≠ [] ∧ ds ≠ [] then some (natOfDigits ds)
      else searchChapterNum rest
    else searchChapterNum rest

/-- `re.match(r"^(\d+)\b", title)`: a leading digit run closed by a word
boundary. -/
def matchLeadingInt (l : List Char) : Option Int :=
  let ds := l.takeWhile pyIsDigit
  if ds = [] then none
  else
    match (l.drop ds.length).head? with
    | none => some (natOfDigits ds)
    | some c => if pyIsWord c then none else some (natOfDigits ds)

/-- `re.search(r"(\d+)", title)`: the first digit run anywhere. -/
def searchFirstInt : List Char → Option Int
  | [] => none
  | c :: rest =>
    if pyIsDigit c then some (natOfDigits ((c :: rest).takeWhile pyIsDigit))
    else searchFirstInt rest

/-- `extract_number` of md_chapter_segment.py: any digit run first, then
`第<CN>章`, then `Chapter <N>`. -/
def extractNumber (title : List Char) : Option Int :=
  match searchFirstInt title with
  | some n => some n
  | none =>
    match searchDiZhangCN title with
    | some g => chineseNumeralToInt g
    | none => searchChapterNum title

/-- `extract_chapter_number` of chapter_parser.py: `第<N>章` with Arabic
digits, then `第<CN>章`, then `Chapter <N>`, then a leading standalone
integer. -/
def extractChapterNumber (title : List Char) : Option Int :=
  match searchDiZhangArabic title with
  | some n => some n
  | none =>
    match searchDiZhangCN title with
    | some g => chineseNumeralToInt g
    | none =>
      match searchChapterNum title with
      | some n => some n
      | none => matchLeadingInt title

/-! ## HeadingCandidateDetector and friends (md_chapter_segment.py)

All definitions below model the `granularity="chapter"` mode, the default
and the one every claim concerns.  (In `granularity="section"` mode the
source's candidate loop reads the unassigned local `strong_chapter` and
would raise `UnboundLocalError`; that mode is not modelled.) -/

/-- `is_md_heading`: `re.match(r"^\s*#{1,6}\s+", line)`. -/
def isMdHeading (line : List Char) : Bool :=
  let t := line.dropWhile pyIsSpace
  let h := (t.takeWhile (fun c => c = '#')).length
  decide (1 ≤ h) && decide (h ≤ 6) &&
    (match (t.drop h).head? with
     | some c => pyIsSpace c
     | none => false)

/-- Markdown nesting level: the hash count when the line is a markdown
heading, else 0 (`len(m.group(1).strip())`). -/
def mdLevel (line : List Char) : Nat :=
  if isMdHeading line then
    ((line.dropWhile pyIsSpace).takeWhile (fun c => c = '#')).length
  else 0

/-- `clean_title`: `re.sub(r"^\s*#{1,6}\s+", "", line).strip()`. -/
def cleanTitle (line : List Char) : List Char :=
  if isMdHeading line then
    let t := line.dropWhile pyIsSpace
    let h := (t.takeWhile (fun c => c = '#')).length
    pyStrip ((t.drop h).dropWhile pyIsSpace)
  else pyStrip line

/-- The class `[一二三四五六七八九十零〇0-9]`. -/
def diClassChar (c : Char) : Bool := cnClassChar c || pyIsDigit c

/-- `第[一二三四五六七八九十零〇0-9]+章` anchored at the start. -/
def diZhangPrefix (lm : List Char) : Bool :=
  match lm with
  | '第' :: rest =>
    let run := rest.takeWhile diClassChar
    decide (run ≠ []) && ((rest.drop run.length).head? == some '章')
  | _ => false

/-- `<word>\s+\d+` anchored at the start (for `Chapter`/`CHAPTER`). -/
def wordThenNum (word lm : List Char) : Bool :=
  startsWith word lm &&
    (let after := lm.drop word.length
     let ws := after.takeWhile pyIsSpace
     decide (ws ≠ []) && decide ((after.drop ws.length).takeWhile pyIsDigit ≠ []))

/-- The strong pattern of `header_confidence` and `select_chapter_heads`:
`^(第[一二三四五六七八九十零〇0-9]+章|Chapter\s+\d+|CHAPTER\s+\d+|附录\s*[A-Za-z0-9一二三四五六七八九十零〇]?)`
(the `附录` alternative succeeds whenever the text starts with `附录`, its
trailing id being optional). -/
def strongMatch (lm : List Char) : Bool :=
  diZhangPrefix lm || wordThenNum "Chapter".data lm ||
    wordThenNum "CHAPTER".data lm || startsWith "附录".data lm

/-- `header_confidence`; the score is an exact integer number of
hundredths (`100` is the source's `1.0`, `80` its `0.8`, and so on). -/
def headerConfidence (line : List Char) (prevBlank nextBlank : Nat) : Int :=
  let lm := pyStrip line
  let score : Int := 0
  let score := if strongMatch lm then score + 100 else score
  let score := if isMdHeading line then score + 80 else score
  let isolation : Int :=
    (if 1 ≤ prevBlank then 15 else 0) + (if 1 ≤ nextBlank then 15 else 0)
  let score := score + isolation
  if 120 < lm.length then score - 50
  else if 80 < lm.length then score - 20
  else score

/-! The four independent scoring signals, written from the specification's
wording (used to compare the imperative accumulation above against the
"sum of independent signals" reading of the spec). -/

/-- Strong-pattern signal of the spec, over the code's actual pattern
(in hundredths). -/
def strongSignal (lm : List Char) : Int := if strongMatch lm then 100 else 0

/-- Markdown-syntax signal (in hundredths). -/
def mdSignal (line : List Char) : Int := if isMdHeading line then 80 else 0

/-- Isolation bonus (in hundredths). -/
def isolationSignal (pb nb : Nat) : Int :=
  (if 1 ≤ pb then 15 else 0) + (if 1 ≤ nb then 15 else 0)

/-- Length penalty (in hundredths). -/
def lengthSignal (lm : List Char) : Int :=
  if 120 < lm.length then -50 else if 80 < lm.length then -20 else 0

/-- The front/back-matter keywords the claim attributes to the strong
pattern (they in fact appear only in chapter_parser.py's patterns). -/
def claimKeywords : List String :=
  ["前言", "序言", "目录", "参考文献", "附录", "致谢", "后记", "结语", "摘要",
   "索引", "术语表", "版权", "Introduction", "Preface", "Contents",
   "References", "Appendix", "Conclusion", "Abstract", "Index", "Glossary"]

/-- The strong pattern as the claim describes it: `第<N/CN>[章篇部分]`,
`Chapter <N>`/`CHAPTER <N>`, `附录`, or any front/back-matter keyword. -/
def claimedStrongMatch (lm : List Char) : Bool :=
  (match lm with
   | '第' :: rest =>
     let run := rest.takeWhile diClassChar
     decide (run ≠ []) &&
       (match (rest.drop run.length).head? with
        | some c => ['章', '篇', '部', '分'].contains c
        | none => false)
   | _ => false) ||
  wordThenNum "Chapter".data lm || wordThenNum "CHAPTER".data lm ||
  startsWith "附录".data lm ||
  claimKeywords.any (fun k => startsWithCI k.data lm)

/-- `\]\(` followed later by `\)` somewhere in the residue of a markdown
link pattern. -/
def hasCloseLink : List Char → Bool
  | [] => false
  | ']' :: '(' :: rest => rest.contains ')' || hasCloseLink ('(' :: rest)
  | _ :: rest => hasCloseLink rest

/-- `re.match(r"^\s*\d+\.\s+\[.*\]\(.*\)", s)`. -/
def numberedLinkMatch (s : List Char) : Bool :=
  let t := s.dropWhile pyIsSpace
  let ds := t.takeWhile pyIsDigit
  if ds.isEmpty then false
  else
    match t.drop ds.length with
    | '.' :: r2 =>
      let ws := r2.takeWhile pyIsSpace
      if ws.isEmpty then false
      else
        match r2.drop ws.length with
        | '[' :: r3 => hasCloseLink r3
        | _ => false
    | _ => false

/-- `.*\s\d+\s*$`: after right-stripping, the text ends in a nonempty digit
run immediately preceded by a whitespace character. -/
def endsWsDigits (rest : List Char) : Bool :=
  let rev := (pyRStrip rest).reverse
  let ds := rev.takeWhile pyIsDigit
  !ds.isEmpty &&
    (match (rev.drop ds.length).head? with
     | some c => pyIsSpace c
     | none => false)

/-- `re.match(r"^#\s*第[一二三四五六七八九十零〇0-9]+章.*\s\d+\s*$", s)`. -/
def tocChapterPageMatch (s : List Char) : Bool :=
  match s with
  | '#' :: r =>
    let r1 := r.dropWhile pyIsSpace
    match r1 with
    | '第' :: r2 =>
      let run := r2.takeWhile diClassChar
      if run.isEmpty then false
      else
        match r2.drop run.length with
        | '章' :: rest => endsWsDigits rest
        | _ => false
    | _ => false
  | _ => false

/-- `should_ignore_line_as_toc`. -/
def shouldIgnoreLineAsToc (line : List Char) : Bool :=
  let s := pyStrip line
  ((startsWith "- ".data s || startsWith "* ".data s) && containsSeq "](".data s) ||
  numberedLinkMatch s ||
  s == "目录".data ||
  pyLower s == "table of contents".data ||
  tocChapterPageMatch s

/-- A heading candidate: line index, confidence, cleaned title, extracted
number, markdown level. -/
structure Cand where
  idx : Nat
  conf : Int
  title : List Char
  num : Option Int
  level : Nat
deriving DecidableEq, Repr

/-- The running blank-line counters of `select_chapter_heads`: entry `i` is
the length of the blank run ending at line `i` (0 when line `i` itself is
non-blank — the source consults the counter at the candidate's own index). -/
def blankRuns (lines : List (List Char)) : List Nat :=
  go 0 lines
where
  go : Nat → List (List Char) → List Nat
    | _, [] => []
    | c, l :: rest =>
      let c' := if isBlank l then c + 1 else 0
      c' :: go c' rest

/-- `blank_counts_prev`. -/
def blankPrevOf (lines : List (List Char)) : List Nat := blankRuns lines

/-- `blank_counts_next` (the same run counter, scanned backwards). -/
def blankNextOf (lines : List (List Char)) : List Nat :=
  (blankRuns lines.reverse).reverse

/-- One iteration of the candidate loop (chapter granularity). -/
def candStep (i : Nat) (line : List Char) (pb nb : Nat) : List Cand :=
  if shouldIgnoreLineAsToc line then []
  else
    let conf := headerConfidence line pb nb
    if 80 ≤ conf then
      let title := if isMdHeading line then cleanTitle line else pyStrip line
      if isMdHeading line && (mdLevel line == 1) && strongMatch title then
        [⟨i, conf, title, extractNumber title, mdLevel line⟩]
      else []
    else []

/-- The candidate list of `select_chapter_heads` (chapter granularity). -/
def buildCands (lines : List (List Char)) : List Cand :=
  go 0 lines (blankPrevOf lines) (blankNextOf lines)
where
  go : Nat → List (List Char) → List Nat → List Nat → List Cand
    | _, [], _, _ => []
    | i, l :: ls, pb :: pbs, nb :: nbs => candStep i l pb nb ++ go (i + 1) ls pbs nbs
    | _, _ :: _, [], _ => []
    | _, _ :: _, _ :: _, [] => []

/-- Emit a finished cluster as a TOC region when it has at least 4 members
and starts in the first fifth of the document (`cluster[0] < n * 0.2`,
decided exactly as `5 * first < n`). -/
def clusterRegion (n : Nat) (cluster : List Nat) : List (Nat × Nat) :=
  match cluster.getLast?, cluster.head? with
  | some first, some last =>
    if 4 ≤ cluster.length ∧ 5 * first < n then [(first, last)] else []
  | _, _ => []

/-- The cluster loop of `detect_toc_regions`; the current cluster is kept
newest-first. -/
def regionsGo (n : Nat) : List Nat → List Nat → List (Nat × Nat)
  | [], cluster => clusterRegion n cluster
  | i :: rest, cluster =>
    match cluster.head? with
    | some last =>
      if i - last ≤ 10 then regionsGo n rest (i :: cluster)
      else clusterRegion n cluster ++ regionsGo n rest [i]
    | none => regionsGo n rest [i]

/-- `detect_toc_regions` (with `n` the document's line count); with fewer
than two candidate indices the gap list is empty and the source returns
no regions. -/
def detectTocRegions (n : Nat) (idxs : List Nat) : List (Nat × Nat) :=
  match idxs with
  | [] => []
  | [_] => []
  | i :: rest => regionsGo n rest [i]

/-- `in_regions`. -/
def inRegions (pos : Nat) (regions : List (Nat × Nat)) : Bool :=
  regions.any fun r => decide (r.1 ≤ pos) && decide (pos ≤ r.2)

/-- The fallback candidate scan (level-1 strong markdown headings, fixed
confidence 0.7).  The literal `0.7` denotes the binary64 value
`0.69999999999999995…`, one ulp below the decimal, and this deficit is
observable: with the `+0.1` first-chapter bonus the code computes
`0.7999999999999999 < 0.8`, while `+0.2` reaches
`0.8999999999999999 ≥ 0.8`.  On the hundredths grid the value is
therefore stored as its truncation `69`, which gives both downstream
`>= 0.8` comparisons (`79 < 80`, `89 ≥ 80`) the code's verdict; storing
the decimal `70` would wrongly pass the threshold after the bonus. -/
def fallbackCands (lines : List (List Char)) : List Cand :=
  go 0 lines
where
  go : Nat → List (List Char) → List Cand
    | _, [] => []
    | i, l :: rest =>
      (if isMdHeading l then
        let title := cleanTitle l
        if mdLevel l == 1 && strongMatch title then
          [⟨i, 69, title, extractNumber title, mdLevel l⟩]
        else []
      else []) ++ go (i + 1) rest

/-- The sequence-validation fold: a candidate with a number gets +0.1 when
no prior number exists, +0.2 when continuing the sequence (equal or exactly
one greater), −0.2 otherwise; the last number is updated regardless. -/
def seqAdjust : Option Int → List Cand → List Cand
  | _, [] => []
  | last, c :: rest =>
    match c.num with
    | none => c :: seqAdjust last rest
    | some n =>
      let adj : Int :=
        match last with
        | none => c.conf + 10
        | some l => if n = l ∨ n = l + 1 then c.conf + 20 else c.conf - 20
      { c with conf := adj } :: seqAdjust (some n) rest

/-- Acceptance: keep scores ≥ 0.8, degrading to the whole adjusted list
when none clears the threshold. -/
def thresholdStage (adj : List Cand) : List Cand :=
  let heads := adj.filter fun c => decide ((80 : Int) ≤ c.conf)
  if heads = [] ∧ adj ≠ [] then adj else heads

/-- The chapter-granularity primary filter (level-1 strong titles),
degrading to the accepted set when it empties it. -/
def primaryStage (heads : List Cand) : List Cand :=
  let primary := heads.filter fun c => c.level == 1 && strongMatch c.title
  if primary = [] then heads else primary

/-- Stable insertion into a list sorted by line index. -/
def insertByIdx (c : Cand) : List Cand → List Cand
  | [] => [c]
  | d :: rest => if c.idx ≤ d.idx then c :: d :: rest else d :: insertByIdx c rest

/-- Stable sort by line index (Python `list.sort(key=lambda x: x[0])`). -/
def sortByIdx : List Cand → List Cand
  | [] => []
  | c :: rest => insertByIdx c (sortByIdx rest)

/-- The tail of `select_chapter_heads` after the TOC filter: sort, sequence
adjustment, acceptance threshold with fallback, primary filter with
fallback, final sort. -/
def stage2 (filtered : List Cand) : List Cand :=
  sortByIdx (primaryStage (thresholdStage (seqAdjust none (sortByIdx filtered))))

/-- `select_chapter_heads` (chapter granularity). -/
def selectChapterHeads (lines : List (List Char)) : List Cand :=
  let cands := buildCands lines
  let regions := detectTocRegions lines.length (cands.map (·.idx))
  let filtered := cands.filter fun c => !inRegions c.idx regions
  let filtered := if filtered = [] then fallbackCands lines else filtered
  stage2 filtered

example :
    (selectChapterHeads (linesOf "Intro\n# 第一章 A\nBody".data)).map (·.idx) = [1] := by
  decide

/-! ## BodyAnchorResolver (`parse_toc_chapters`, `find_body_chapter_starts`)
and the `segment_file` slicing. -/

/-- The tail `\s+(.*?)\s(\d+)\s*$` of the TOC line pattern, returning the
lazily-captured title group when it matches: after right-stripping, the
text must end in a digit run whose preceding character is whitespace, with
room for the leading `\s+`; the lazy group then stretches from the end of
the greedy leading whitespace run to that separator. -/
def tocTailMatch (rest : List Char) : Option (List Char) :=
  let u := pyRStrip rest
  let ds := u.reverse.takeWhile pyIsDigit
  if ds.isEmpty then none
  else
    let d := u.length - ds.length
    let wsRun := (rest.takeWhile pyIsSpace).length
    if d < 2 then none
    else
      match u.get? (d - 1) with
      | some c =>
        if pyIsSpace c ∧ 1 ≤ wsRun then
          let a := min wsRun (d - 1)
          some ((u.drop a).take (d - 1 - a))
        else none
      | none => none

/-- `re.match(r"^#\s*(第[一二三四五六七八九十零〇0-9]+章)\s+(.*?)\s(\d+)\s*$", s)`,
returning the raw `第…章` group and the title group. -/
def tocLineMatch (s : List Char) : Option (List Char × List Char) :=
  match s with
  | '#' :: r =>
    let r1 := r.dropWhile pyIsSpace
    match r1 with
    | '第' :: r2 =>
      let run := r2.takeWhile diClassChar
      if run.isEmpty then none
      else
        match r2.drop run.length with
        | '章' :: rest =>
          (tocTailMatch rest).map fun t => ('第' :: (run ++ ['章']), t)
        | _ => none
    | _ => none
  | _ => none

/-- `parse_toc_chapters`: the `(num, title, line_index)` entries. -/
def parseTocChapters (lines : List (List Char)) : List (Int × List Char × Nat) :=
  go 0 lines
where
  go : Nat → List (List Char) → List (Int × List Char × Nat)
    | _, [] => []
    | i, l :: rest =>
      (match tocLineMatch (pyStrip l) with
       | some (raw, title) =>
         match extractNumber raw with
         | some num => [(num, title, i)]
         | none => []
       | none => []) ++ go (i + 1) rest

/-- `str(num)` for the nonnegative chapter numbers occurring here. -/
def intRepr (n : Int) : List Char := (toString n).data

/-- `re.compile(rf"^#\s*{num}\b")` applied to a stripped line. -/
def patNumH1 (numStr s : List Char) : Bool :=
  match s with
  | '#' :: r =>
    let r1 := r.dropWhile pyIsSpace
    startsWith numStr r1 &&
      (match (r1.drop numStr.length).head? with
       | some c => !pyIsWord c
       | none => true)
  | _ => false

/-- `re.compile(r"^#\s*第[一二三四五六七八九十零〇0-9]+章(?!.*\s\d+\s*$)")`. -/
def patChH1 (s : List Char) : Bool :=
  match s with
  | '#' :: r =>
    let r1 := r.dropWhile pyIsSpace
    match r1 with
    | '第' :: r2 =>
      let run := r2.takeWhile diClassChar
      if run.isEmpty then false
      else
        match r2.drop run.length with
        | '章' :: rest => !endsWsDigits rest
        | _ => false
    | _ => false
  | _ => false

/-- Index of the first line satisfying a predicate. -/
def findFirstIdx (p : List Char → Bool) (lines : List (List Char)) : Option Nat :=
  go 0 lines
where
  go : Nat → List (List Char) → Option Nat
    | _, [] => none
    | i, l :: rest => if p l then some i else go (i + 1) rest

/-- `toc_map.get(num, '')` — the dict comprehension keeps the last entry
for a repeated number. -/
def tocMapGet (entries : List (Int × List Char × Nat)) (num : Int) : List Char :=
  match entries.reverse.find? (fun e => e.1 == num) with
  | some e => e.2.1
  | none => []

/-- `find_body_chapter_starts`. -/
def findBodyChapterStarts (lines : List (List Char))
    (entries : List (Int × List Char × Nat)) : List Cand :=
  sortByIdx (go entries)
where
  go : List (Int × List Char × Nat) → List Cand
    | [] => []
    | (num, _, _) :: rest =>
      (let found :=
        match findFirstIdx (fun l => patNumH1 (intRepr num) (pyStrip l)) lines with
        | some j => some j
        | none =>
          findFirstIdx
            (fun l => patChH1 (pyStrip l) &&
              (extractNumber (cleanTitle (pyStrip l)) == some num)) lines
      match found with
      | some j =>
        [⟨j, 100,
          pyStrip ("第".data ++ intRepr num ++ "章 ".data ++ pyStrip (tocMapGet entries num)),
          some num, 1⟩]
      | none => []) ++ go rest

/-- The final heading set of `segment_file` (chapter granularity): the TOC
body anchors fully replace the heuristic heads when nonempty. -/
def segmentHeads (text : List Char) : List Cand :=
  let lines := linesOf (normalizeText text)
  let heads0 := selectChapterHeads lines
  let bs := findBodyChapterStarts lines (parseTocChapters lines)
  if bs ≠ [] then bs else heads0

/-- The chunk contents `"\n".join(lines[start:end])` cut at consecutive
start indices (the last chunk runs to the end of the document). -/
def slicesGo (lines : List (List Char)) : List Nat → List (List Char)
  | [] => []
  | [s] => [joinNl (lines.drop s)]
  | s :: s' :: rest => joinNl ((lines.drop s).take (s' - s)) :: slicesGo lines (s' :: rest)

/-- `segment_file` (chapter granularity), modelled as the list of chunk
texts it writes; with no heads the whole normalized text is the single
chunk. -/
def segmentFile (text : List Char) : List (List Char) :=
  let t := normalizeText text
  let lines := linesOf t
  let heads := segmentHeads text
  if heads = [] then [t]
  else slicesGo lines (heads.map (·.idx))

example : segmentFile "Intro\n# 第一章 A\nBody".data = ["# 第一章 A\nBody".data] := by
  decide

example :
    (parseTocChapters ["# 第1章 绪论 12".data]).map (fun e => (e.1, e.2.1)) =
      [(1, "绪论".data)] := by decide

example : segmentFile "plain text\nonly".data = ["plain text\nonly".data] := by decide

/-! ## ChapterAssembler (`parse_chapters_by_regex` of chapter_parser.py)

`order` is stored in exact tenths: the source's integer `chapter_order` k
becomes `10 * k`, and a split chunk's `order + (part-1)*0.1` becomes
`order + (part-1)` on this scale. -/

/-- A chapter / chunk record as the parser builds it. -/
structure PChapter where
  title : String
  content : String
  level : Nat
  order : Int
  chapterNum : Option Int
  tokenCount : Nat
  needsSplit : Bool
  isSplitPart : Bool
  partNumber : Option Nat
deriving DecidableEq, Repr

/-- The front/back-matter keywords of `chapter_patterns`. -/
def kwList : List String :=
  ["序言", "前言", "目录", "参考文献", "附录", "致谢", "后记", "结语", "摘要",
   "索引", "术语表", "版权", "作者", "推荐语", "Introduction", "Preface",
   "Contents", "References", "Appendix", "Acknowledgement", "Conclusion",
   "Abstract", "Index", "Glossary", "Copyright", "About", "Praise"]

/-- The compiled alternation of `chapter_patterns` (matched with
`re.IGNORECASE` against the stripped line).  In the third alternative
`^#+\s*\d+\s+[^\.\d]`, when the whitespace run after the digits has two or
more characters the greedy `\s+` backtracks and the negated class consumes
the last whitespace character, so the branch succeeds regardless of what
follows. -/
def combinedMatch (s : List Char) : Bool :=
  let hs := s.takeWhile (fun c => c = '#')
  if hs.isEmpty then false
  else
    let r := (s.drop hs.length).dropWhile pyIsSpace
    (match r with
     | '第' :: r2 =>
       let run := r2.takeWhile diClassChar
       decide (run ≠ []) &&
         (match (r2.drop run.length).head? with
          | some c => ['章', '篇', '部', '分'].contains c
          | none => false)
     | _ => false) ||
    (startsWithCI "chapter".data r &&
      (let after := r.drop 7
       let ws := after.takeWhile pyIsSpace
       decide (ws ≠ []) && decide ((after.drop ws.length).takeWhile pyIsDigit ≠ []))) ||
    (let ds := r.takeWhile pyIsDigit
     decide (ds ≠ []) &&
       (let afterDs := r.drop ds.length
        let ws := afterDs.takeWhile pyIsSpace
        decide (2 ≤ ws.length) ||
          (decide (ws.length = 1) &&
            (match (afterDs.drop 1).head? with
             | some c => !(c = '.' || pyIsDigit c)
             | none => false)))) ||
    kwList.any (fun k => startsWithCI k.data r)

/-- `re.sub(r'^#+\s*', '', line_stripped)`. -/
def titleOf (s : List Char) : List Char :=
  let hs := s.takeWhile (fun c => c = '#')
  if hs.isEmpty then s else (s.drop hs.length).dropWhile pyIsSpace

/-- `toc_header_pattern`: `^\s*(目录|Contents|Table of Contents)\s*$`,
case-insensitive. -/
def tocHeaderMatch (t : List Char) : Bool :=
  let u := pyLower (pyStrip t)
  u == "目录".data || u == "contents".data || u == "table of contents".data

/-- The class `[IVXivx]` of `toc_entry_pattern`. -/
def romanChar (c : Char) : Bool := ['I', 'V', 'X', 'i', 'v', 'x'].contains c

/-- The last character a `(\s+|…|\.+)` separator can end with. -/
def sepTailChar (c : Char) : Bool := pyIsSpace c || c = '…' || c = '.'

/-- `toc_entry_pattern`: `.*(\s+|…|\.+)(\d+|[IVXivx]+)\s*$` — after
right-stripping, the text ends in a digit run or roman-numeral run whose
immediately preceding character closes a separator. -/
def tocEntryMatch (t : List Char) : Bool :=
  let rev := (pyRStrip t).reverse
  (let ds := rev.takeWhile pyIsDigit
   !ds.isEmpty &&
     (match (rev.drop ds.length).head? with
      | some c => sepTailChar c
      | none => false)) ||
  (let rs := rev.takeWhile romanChar
   !rs.isEmpty &&
     (match (rev.drop rs.length).head? with
      | some c => sepTailChar c
      | none => false))

/-- The loop state of `parse_chapters_by_regex`. -/
structure RState where
  chapters : List PChapter
  current : Option PChapter
  content : List (List Char)
  order : Nat
  inToc : Bool
deriving Repr

/-- Saving the current chapter: fill `content` with the stripped joined
buffer and recompute `token_count` from it. -/
def saveCurrent (tok : String → Nat) (st : RState) : List PChapter :=
  match st.current with
  | some c =>
    let body := String.mk (pyStrip (joinNl st.content))
    st.chapters ++ [{ c with content := body, tokenCount := tok body }]
  | none => st.chapters

/-- A freshly opened chapter record. -/
def mkChapter (title : List Char) (order : Nat) : PChapter :=
  { title := String.mk title, content := "", level := 1, order := 10 * (order : Int),
    chapterNum := extractChapterNumber title, tokenCount := 0,
    needsSplit := false, isSplitPart := false, partNumber := none }

/-- The synthetic front-matter chapter `前言/说明`. -/
def mkFront (order : Nat) : PChapter :=
  { title := "前言/说明", content := "", level := 1, order := 10 * (order : Int),
    chapterNum := none, tokenCount := 0,
    needsSplit := false, isSplitPart := false, partNumber := none }

/-- One iteration of the `parse_chapters_by_regex` line loop. -/
def rStep (tok : String → Nat) (st : RState) (line : List Char) : RState :=
  let ls := pyStrip line
  if combinedMatch ls then
    let title := titleOf ls
    let isTocHeader := tocHeaderMatch title
    if st.inToc && !isTocHeader && tocEntryMatch title then
      match st.current with
      | some _ => { st with content := st.content ++ [line] }
      | none => st
    else
      { chapters := saveCurrent tok st,
        current := some (mkChapter title st.order),
        content := [],
        order := st.order + 1,
        inToc := isTocHeader }
  else
    match st.current with
    | some _ => { st with content := st.content ++ [line] }
    | none =>
      if ls ≠ [] then
        if st.chapters = [] then
          { st with current := some (mkFront st.order), order := st.order + 1,
                    content := st.content ++ [line] }
        else { st with content := st.content ++ [line] }
      else st

/-- `parse_chapters_by_regex`, over an abstract token counter. -/
def parseChaptersByRegex (tok : String → Nat) (text : List Char) : List PChapter :=
  saveCurrent tok ((linesOf text).foldl (rStep tok) ⟨[], none, [], 0, false⟩)

/-! ## ChapterSplitter (`split_large_chapter`) -/

/-- `'\n\n'.join(...)` over strings. -/
def joinParS (paras : List String) : String :=
  String.mk (joinPar (paras.map (fun p => p.data)))

/-- The loop state of `split_large_chapter`. -/
structure SState where
  chunks : List PChapter
  current : List String
  curTok : Nat
  idx : Nat
deriving Repr

/-- A chunk flushed mid-loop (always `(Part idx)`-titled and marked split). -/
def mkFlushChunk (ch : PChapter) (idx toks : Nat) (cur : List String) : PChapter :=
  { title := ch.title ++ " (Part " ++ toString idx ++ ")",
    content := joinParS cur,
    level := ch.level,
    order := ch.order + ((idx - 1 : Nat) : Int),
    chapterNum := ch.chapterNum,
    tokenCount := toks,
    needsSplit := false,
    isSplitPart := true,
    partNumber := some idx }

/-- One iteration of the paragraph loop. -/
def sStep (tok : String → Nat) (ch : PChapter) (maxT : Nat) (st : SState)
    (para : String) : SState :=
  let pt := tok para
  if maxT < st.curTok + pt then
    if st.current ≠ [] then
      { chunks := st.chunks ++ [mkFlushChunk ch st.idx st.curTok st.current],
        current := [para], curTok := pt, idx := st.idx + 1 }
    else { st with current := [para], curTok := pt }
  else { st with current := st.current ++ [para], curTok := st.curTok + pt }

/-- The trailing chunk (bare title when it is the only one). -/
def finalChunk (ch : PChapter) (st : SState) : PChapter :=
  { title := if 1 < st.idx then ch.title ++ " (Part " ++ toString st.idx ++ ")" else ch.title,
    content := joinParS st.current,
    level := ch.level,
    order := ch.order + ((st.idx - 1 : Nat) : Int),
    chapterNum := ch.chapterNum,
    tokenCount := st.curTok,
    needsSplit := false,
    isSplitPart := decide (1 < st.idx),
    partNumber := if 1 < st.idx then some st.idx else none }

/-- `split_large_chapter`. -/
def splitLargeChapter (tok : String → Nat) (ch : PChapter) (maxT : Nat) :
    List PChapter :=
  let paras := (splitOnPar ch.content.data).map String.mk
  let st := paras.foldl (sStep tok ch maxT) ⟨[], [], 0, 1⟩
  let chunks := st.chunks ++ (if st.current = [] then [] else [finalChunk ch st])
  if chunks = [] then [ch] else chunks

/-- A plain character-count token counter, used for concrete witnesses. -/
def lenTok (s : String) : Nat := s.length

/-- A handy concrete chapter for witnesses. -/
def sampleChapter (content : String) (order : Int) : PChapter :=
  { title := "第一章 甲", content := content, level := 1, order := order,
    chapterNum := some 1, tokenCount := 0, needsSplit := false,
    isSplitPart := false, partNumber := none }

example :
    (parseChaptersByRegex lenTok "书名\n\n# 第一章 起\n\n正文甲\n\n# 第二章 承\n正文乙".data).map
      (fun c => (c.title, c.content, c.order)) =
    [("前言/说明", "书名", 0), ("第一章 起", "正文甲", 10), ("第二章 承", "正文乙", 20)] := by
  decide

example :
    (splitLargeChapter lenTok (sampleChapter "aa\n\nbb\n\ncc" 10) 5).map
      (fun c => (c.title, c.content, c.tokenCount, c.order)) =
    [("第一章 甲 (Part 1)", "aa\n\nbb", 4, 10), ("第一章 甲 (Part 2)", "cc", 2, 11)] := by
  decide


/-! ## Claim C5 — numeral resolution -/

/-- The eleven Chinese digit characters (the `units` keys). -/
def cnDigitChars : List Char :=
  ['零', '〇', '一', '二', '三', '四', '五', '六', '七', '八', '九']

/-- Total value of a Chinese digit character. -/
def cnVal (c : Char) : Nat := (unitVal c).getD 0

/-- Claim C5, corrected: the resolver tries `第<N>章` (Arabic), `第<CN>章`
(Chinese), `Chapter <N>`, then a leading standalone integer; the bare `十`
is 10, `l十r` is `(l or 1)*10 + (r or 0)`, and a numeral without `十` sums
its digits.  The Chinese-numeral branch returns `null` when its computed
value is 0 (and later patterns are then not tried), but an Arabic `0`
captured by the first or fourth pattern is returned as `0`, not `null`;
a title with no numeral yields `null`. -/
theorem C5_numeral_resolution_amended :
    (∀ a b : Char, a ∈ cnDigitChars → b ∈ cnDigitChars →
      chineseNumeralToInt [a, '十', b] =
        (if cnVal a * 10 + cnVal b = 0 then none
         else some ((cnVal a * 10 + cnVal b : Nat) : Int))) ∧
    (∀ a : Char, a ∈ cnDigitChars →
      chineseNumeralToInt [a, '十'] =
        (if cnVal a = 0 then none else some ((cnVal a * 10 : Nat) : Int))) ∧
    (∀ b : Char, b ∈ cnDigitChars →
      chineseNumeralToInt ['十', b] = some ((10 + cnVal b : Nat) : Int)) ∧
    (∀ a : Char, a ∈ cnDigitChars →
      chineseNumeralToInt [a] =
        (if cnVal a = 0 then none else some ((cnVal a : Nat) : Int))) ∧
    chineseNumeralToInt ['十'] = some 10 ∧
    extractChapterNumber "第十二章".data = some 12 ∧
    extractChapterNumber "第三章".data = some 3 ∧
    extractChapterNumber "Chapter 7".data = some 7 ∧
    extractChapterNumber "第十章".data = some 10 ∧
    extractChapterNumber "某某某".data = none ∧
    extractChapterNumber "第0章".data = some 0 ∧
    extractChapterNumber "第零章".data = none ∧
    extractNumber "第十二章".data = some 12 ∧
    extractNumber "Chapter 7".data = some 7 := by
  refine ⟨?_, ?_, ?_, ?_, by decide, by decide, by decide, by decide, by decide,
    by decide, by decide, by decide, by decide, by decide⟩
  · intro a b ha hb
    fin_cases ha <;> fin_cases hb <;> decide
  · intro a ha
    fin_cases ha <;> decide
  · intro b hb
    fin_cases hb <;> decide
  · intro a ha
    fin_cases ha <;> decide

/-- Witness: the two-digit law instantiated at `二十三`. -/
theorem C5_numeral_resolution_witness :
    chineseNumeralToInt ['二', '十', '三'] = some 23 := by
  have h := C5_numeral_resolution_amended.1 '二' '三' (by decide) (by decide)
  rw [h]
  decide

/-- The claim as stated is false: it asserts the resolver returns `null`
whenever the computed value is 0, but `第0章` resolves to `0`. -/
theorem C5_numeral_resolution_counterexample :
    extractChapterNumber "第0章".data = some 0 ∧
    ¬ extractChapterNumber "第0章".data = none := by
  exact ⟨by decide, by decide⟩

/-! ## Claim C4 — heading confidence scoring -/

/-- Every candidate `candStep` emits carries its line's confidence, which
the guard has checked against the 0.8 threshold. -/
theorem conf_ge_of_mem_candStep {c : Cand} {i : Nat} {l : List Char} {pb nb : Nat}
    (h : c ∈ candStep i l pb nb) : 80 ≤ c.conf := by
  by_cases h1 : shouldIgnoreLineAsToc l
  · simp [candStep, h1] at h
  · by_cases h2 : (80 : Int) ≤ headerConfidence l pb nb
    · by_cases h3 : (isMdHeading l && mdLevel l == 1 &&
          strongMatch (if isMdHeading l then cleanTitle l else pyStrip l))
      · simp [candStep, h1, h2, h3] at h
        subst h
        exact h2
      · simp [candStep, h1, h2, h3] at h
    · simp [candStep, h1, h2] at h

/-- Threshold bound, lifted over the candidate loop. -/
theorem conf_ge_of_mem_go {c : Cand} :
    ∀ {i : Nat} {ls : List (List Char)} {pbs nbs : List Nat},
      c ∈ buildCands.go i ls pbs nbs → 80 ≤ c.conf := by
  intro i ls
  induction ls generalizing i with
  | nil => intro pbs nbs h; simp [buildCands.go] at h
  | cons l ls ih =>
    intro pbs nbs h
    match pbs, nbs with
    | [], _ => simp [buildCands.go] at h
    | _ :: _, [] => simp [buildCands.go] at h
    | pb :: pbs, nb :: nbs =>
      rw [buildCands.go, List.mem_append] at h
      rcases h with h | h
      · exact conf_ge_of_mem_candStep h
      · exact ih h

/-- Claim C4, corrected: the score is the sum of the four independent
signals, but the strong pattern is only `第<N/CN>章` / `Chapter <N>` /
`CHAPTER <N>` / `附录…` — `篇`/`部分` endings and the front/back-matter
keywords are not part of it — and the candidate list construction keeps
only lines whose confidence is ≥ 0.8 (stored ×100). -/
theorem C4_confidence_amended :
    (∀ line pb nb, headerConfidence line pb nb =
      strongSignal (pyStrip line) + mdSignal line + isolationSignal pb nb +
        lengthSignal (pyStrip line)) ∧
    (∀ lines c, c ∈ buildCands lines → 80 ≤ c.conf) := by
  constructor
  · intro line pb nb
    simp only [headerConfidence, strongSignal, mdSignal, isolationSignal, lengthSignal]
    split_ifs <;> ring
  · intro lines c hc
    unfold buildCands at hc
    exact conf_ge_of_mem_go hc

/-- Witness for C4: the decomposition at a concrete heading line, and the
threshold bound at the one candidate of a concrete document. -/
theorem C4_confidence_witness :
    headerConfidence "# 第一章 A".data 0 0 =
      strongSignal (pyStrip "# 第一章 A".data) + mdSignal "# 第一章 A".data +
        isolationSignal 0 0 + lengthSignal (pyStrip "# 第一章 A".data) ∧
    80 ≤ (Cand.mk 1 80 "第一章 A".data (some 1) 1).conf := by
  constructor
  · exact C4_confidence_amended.1 "# 第一章 A".data 0 0
  · exact C4_confidence_amended.2 (linesOf "Intro\n# 第一章 A\nBody".data) _ (by decide)

/-- The claim as stated is false: `前言` is in its strong-pattern list, yet
`header_confidence` gives it no +1.0 (with both isolation bonuses the score
is 0.3), and a line scoring below 0.8 never enters the candidate list. -/
theorem C4_confidence_counterexample :
    headerConfidence "前言".data 1 1 = 30 ∧
    claimedStrongMatch "前言".data = true ∧
    strongMatch "前言".data = false ∧
    (buildCands ["前言".data, [], "# 第一章 A".data]).map (fun c => c.idx) = [2] := by
  exact ⟨by decide, by decide, by decide, by decide⟩

/-! ## Claim C3 — sequence validation -/

/-- The sequence bonus exactly as the spec words it. -/
def seqBonus (last : Option Int) (n : Int) : Int :=
  match last with
  | none => 10
  | some l => if n = l ∨ n = l + 1 then 20 else -20

/-- A weak candidate of base score 0.6 with a strong level-1 title. -/
def weakCand (i : Nat) (n : Int) (t : String) : Cand := ⟨i, 60, t.data, some n, 1⟩

/-- Three weak candidates numbered 1, 2, 3 in document order. -/
def weakSeq123 : List Cand :=
  [weakCand 0 1 "第一章", weakCand 5 2 "第二章", weakCand 10 3 "第三章"]

/-- The same three with numbers 1, 5, 2. -/
def weakSeq152 : List Cand :=
  [weakCand 0 1 "第一章", weakCand 5 5 "第五章", weakCand 10 2 "第二章"]

/-- Claim C3, corrected: the adjustment rules are as stated (+0.1 with no
prior number, +0.2 on equal-or-successor, −0.2 otherwise, the last number
updated regardless), and acceptance at ≥ 0.8 happens after adjustment; but
with base 0.6 and numbers 1,2,3 only the second and third candidates are
accepted (the first reaches only 0.7), and with numbers 1,5,2 no candidate
reaches 0.8, so the no-survivor fallback accepts all three. -/
theorem C3_sequence_amended :
    (∀ last (c : Cand) rest n, c.num = some n →
      seqAdjust last (c :: rest) =
        { c with conf := c.conf + seqBonus last n } :: seqAdjust (some n) rest) ∧
    (∀ last (c : Cand) rest, c.num = none →
      seqAdjust last (c :: rest) = c :: seqAdjust last rest) ∧
    (stage2 weakSeq123).map (fun c => (c.idx, c.conf)) = [(5, 80), (10, 80)] ∧
    (stage2 weakSeq152).map (fun c => (c.idx, c.conf)) =
      [(0, 70), (5, 40), (10, 40)] := by
  refine ⟨?_, ?_, by decide, by decide⟩
  · intro last c rest n h
    cases last with
    | none => simp [seqAdjust, h, seqBonus]
    | some l =>
      simp only [seqAdjust, h, seqBonus]
      split <;> simp [Int.sub_eq_add_neg]
  · intro last c rest h
    simp [seqAdjust, h]

/-- Witness for C3: the first-chapter bonus applied to a concrete
candidate. -/
theorem C3_sequence_witness :
    seqAdjust none [weakCand 0 1 "第一章"] =
      [{ weakCand 0 1 "第一章" with conf := (weakCand 0 1 "第一章").conf + seqBonus none 1 }] :=
  C3_sequence_amended.1 none (weakCand 0 1 "第一章") [] 1 (by decide)

/-- The claim as stated is false at both of its concrete scenarios: with
numbers 1,2,3 only two of the three weak candidates are accepted, and with
numbers 1,5,2 all three are (via the no-survivor fallback). -/
theorem C3_sequence_counterexample :
    ¬ (stage2 weakSeq123).length = 3 ∧ (stage2 weakSeq152).length = 3 := by
  exact ⟨by decide, by decide⟩

/-! ## Claim C9 — TOC region detection -/

/-- Membership under stable insertion. -/
theorem mem_insertByIdx {c d : Cand} {l : List Cand} :
    c ∈ insertByIdx d l ↔ c = d ∨ c ∈ l := by
  induction l with
  | nil => simp [insertByIdx]
  | cons e rest ih =>
    simp only [insertByIdx]
    split
    · simp
    · simp [ih]
      tauto

/-- Sorting by index preserves membership. -/
theorem mem_sortByIdx {c : Cand} {l : List Cand} : c ∈ sortByIdx l ↔ c ∈ l := by
  induction l with
  | nil => simp [sortByIdx]
  | cons d rest ih => simp [sortByIdx, mem_insertByIdx, ih]

/-- The sequence adjustment changes only confidences: the index trace is
untouched. -/
theorem seqAdjust_map_idx (last : Option Int) (cs : List Cand) :
    (seqAdjust last cs).map (fun c => c.idx) = cs.map (fun c => c.idx) := by
  induction cs generalizing last with
  | nil => simp [seqAdjust]
  | cons c rest ih =>
    cases hn : c.num <;> simp [seqAdjust, hn, ih]

/-- The acceptance stage only keeps or returns members of its input. -/
theorem mem_thresholdStage {c : Cand} {adj : List Cand}
    (h : c ∈ thresholdStage adj) : c ∈ adj := by
  simp only [thresholdStage] at h
  split at h
  · exact h
  · exact List.mem_of_mem_filter h

/-- The primary filter only keeps or returns members of its input. -/
theorem mem_primaryStage {c : Cand} {heads : List Cand}
    (h : c ∈ primaryStage heads) : c ∈ heads := by
  simp only [primaryStage] at h
  split at h
  · exact h
  · exact List.mem_of_mem_filter h

/-- A cluster is emitted as a region only when its first member sits in
the first fifth of the document. -/
theorem clusterRegion_bound {n : Nat} {cluster : List Nat} {r : Nat × Nat}
    (h : r ∈ clusterRegion n cluster) : 5 * r.1 < n := by
  unfold clusterRegion at h
  split at h
  · split at h
    · rename_i hcond
      rw [List.mem_singleton] at h
      subst h
      exact hcond.2
    · exact absurd h (List.not_mem_nil r)
  · exact absurd h (List.not_mem_nil r)

/-- The bound holds for every region the cluster loop produces. -/
theorem regionsGo_bound {n : Nat} :
    ∀ {rest cluster : List Nat} {r : Nat × Nat},
      r ∈ regionsGo n rest cluster → 5 * r.1 < n := by
  intro rest
  induction rest with
  | nil =>
    intro cluster r h
    rw [regionsGo] at h
    exact clusterRegion_bound h
  | cons i rest ih =>
    intro cluster r h
    rw [regionsGo] at h
    split at h
    · split at h
      · exact ih h
      · rw [List.mem_append] at h
        rcases h with h | h
        · exact clusterRegion_bound h
        · exact ih h
    · exact ih h

/-- Claim C9, corrected: every detected region's cluster starts in the
first fifth of the document (`5 * first < n` is exactly
`cluster[0] < n * 0.2`), and — provided at least one candidate survives
the region filter — no returned chapter head lies inside a detected
region.  When the filter discards every candidate, the markdown-heading
fallback re-admits lines inside the regions, so clustered heading-like
lines can then still become chapter boundaries. -/
theorem C9_toc_regions_amended :
    (∀ (n : Nat) (idxs : List Nat) (r : Nat × Nat),
      r ∈ detectTocRegions n idxs → 5 * r.1 < n) ∧
    (∀ lines : List (List Char),
      (buildCands lines).filter
        (fun c => !inRegions c.idx
          (detectTocRegions lines.length ((buildCands lines).map (fun c => c.idx)))) ≠ [] →
      ∀ h ∈ selectChapterHeads lines,
        inRegions h.idx
          (detectTocRegions lines.length ((buildCands lines).map (fun c => c.idx))) = false) := by
  constructor
  · intro n idxs r h
    unfold detectTocRegions at h
    split at h
    · exact absurd h (List.not_mem_nil r)
    · exact absurd h (List.not_mem_nil r)
    · exact regionsGo_bound h
  · intro lines hne h hmem
    simp only [selectChapterHeads, stage2] at hmem
    rw [if_neg hne] at hmem
    have h1 := mem_sortByIdx.1 hmem
    have h2 := mem_thresholdStage (mem_primaryStage h1)
    have h4 : h.idx ∈ (sortByIdx ((buildCands lines).filter
        (fun c => !inRegions c.idx
          (detectTocRegions lines.length ((buildCands lines).map (fun c => c.idx)))))).map
            (fun c => c.idx) := by
      rw [← seqAdjust_map_idx none]
      exact List.mem_map_of_mem _ h2
    obtain ⟨c, hc, hcidx⟩ := List.mem_map.1 h4
    have hcf := List.of_mem_filter (mem_sortByIdx.1 hc)
    rw [← hcidx]
    simpa using hcf

/-- Witness document for C9: four clustered strong headings at the top and
one genuine heading far below. -/
def tocDocA : List (List Char) :=
  (["# 第一章 甲", "# 第二章 乙", "# 第三章 丙", "# 第四章 丁",
    "正文", "正文", "正文", "正文", "正文", "正文", "正文", "正文", "正文",
    "正文", "正文", "# 第五章 戊"] : List String).map (fun s => s.data)

/-- Witness for C9: on `tocDocA` a candidate survives outside the region
`(0,3)`, and the returned head (line 15) lies outside every region. -/
theorem C9_toc_regions_witness :
    inRegions 15
      (detectTocRegions tocDocA.length ((buildCands tocDocA).map (fun c => c.idx))) = false := by
  have h := C9_toc_regions_amended.2 tocDocA (by decide)
      ⟨15, 90, "第五章 戊".data, some 5, 1⟩ (by decide)
  exact h

/-- The same document with no heading outside the cluster: the region is
detected, the filter empties the candidate list, and the fallback makes
clustered lines chapter boundaries — refuting the claim's "never become
chapter boundaries". -/
def tocDocB : List (List Char) :=
  (["# 第一章 甲", "# 第二章 乙", "# 第三章 丙", "# 第四章 丁",
    "正文", "正文", "正文", "正文", "正文", "正文", "正文", "正文", "正文",
    "正文", "正文", "正文"] : List String).map (fun s => s.data)

/-- The claim as stated is false: lines 1–3 of the detected TOC region
`(0,3)` are returned as chapter heads on `tocDocB`.  Line 0 alone is
dropped, and not by the region filter: its fallback score 0.7 plus the
0.1 first-chapter bonus is `0.7999999999999999` in binary64, one ulp
below the 0.8 threshold (`79 < 80` on the grid), while the three
sequence-continuing lines reach `0.8999999999999999 ≥ 0.8` (`89`). -/
theorem C9_toc_regions_counterexample :
    detectTocRegions tocDocB.length ((buildCands tocDocB).map (fun c => c.idx)) = [(0, 3)] ∧
    (selectChapterHeads tocDocB).map (fun c => c.idx) = [1, 2, 3] ∧
    (seqAdjust none (sortByIdx (fallbackCands tocDocB))).map (fun c => c.conf) =
      [79, 89, 89, 89] := by
  exact ⟨by decide, by decide, by decide⟩

/-! ## The parse-loop invariants shared by C6, C7 and C10 -/

/-- Every saved chapter's `content` is a stripped string and its
`token_count` was recomputed from that exact content. -/
def SavedOk (tok : String → Nat) (c : PChapter) : Prop :=
  (∃ raw : List Char, c.content = String.mk (pyStrip raw)) ∧
  c.tokenCount = tok c.content

/-- Each loop iteration either leaves the chapter list alone or replaces it
by the saved list. -/
theorem rStep_chapters (tok : String → Nat) (st : RState) (line : List Char) :
    (rStep tok st line).chapters = st.chapters ∨
    (rStep tok st line).chapters = saveCurrent tok st := by
  simp only [rStep]
  split
  · split
    · split
      · exact Or.inl rfl
      · exact Or.inl rfl
    · exact Or.inr rfl
  · split
    · exact Or.inl rfl
    · split
      · split
        · exact Or.inl rfl
        · exact Or.inl rfl
      · exact Or.inl rfl

/-- Saving preserves and extends `SavedOk`. -/
theorem savedOk_mem_saveCurrent {tok : String → Nat} {st : RState}
    (hinv : ∀ c ∈ st.chapters, SavedOk tok c) :
    ∀ c ∈ saveCurrent tok st, SavedOk tok c := by
  intro c hc
  unfold saveCurrent at hc
  split at hc
  · rw [List.mem_append] at hc
    rcases hc with hc | hc
    · exact hinv c hc
    · rw [List.mem_singleton] at hc
      subst hc
      exact ⟨⟨joinNl st.content, rfl⟩, rfl⟩
  · exact hinv c hc

/-- One loop step preserves `SavedOk` for all saved chapters. -/
theorem savedOk_step {tok : String → Nat} {st : RState} {line : List Char}
    (hinv : ∀ c ∈ st.chapters, SavedOk tok c) :
    ∀ c ∈ (rStep tok st line).chapters, SavedOk tok c := by
  rcases rStep_chapters tok st line with h | h <;> rw [h]
  · exact hinv
  · exact savedOk_mem_saveCurrent hinv

/-- The whole loop preserves `SavedOk`. -/
theorem savedOk_foldl {tok : String → Nat} :
    ∀ (lines : List (List Char)) (st : RState),
      (∀ c ∈ st.chapters, SavedOk tok c) →
      ∀ c ∈ (lines.foldl (rStep tok) st).chapters, SavedOk tok c := by
  intro lines
  induction lines with
  | nil => intro st h; simpa using h
  | cons l rest ih => intro st h; exact ih _ (savedOk_step h)

/-- Every chapter `parse_chapters_by_regex` returns satisfies `SavedOk`. -/
theorem parse_savedOk {tok : String → Nat} {text : List Char} :
    ∀ c ∈ parseChaptersByRegex tok text, SavedOk tok c := by
  intro c hc
  unfold parseChaptersByRegex at hc
  exact savedOk_mem_saveCurrent (savedOk_foldl _ _ (by simp)) c hc

/-! ## Claim C10 — contents are stripped -/

/-- The head of a `dropWhile` never satisfies the dropped predicate. -/
theorem head_dropWhile_not {p : Char → Bool} :
    ∀ {l : List Char} {c : Char}, (l.dropWhile p).head? = some c → p c = false := by
  intro l
  induction l with
  | nil => intro c h; simp [List.dropWhile] at h
  | cons a rest ih =>
    intro c h
    rw [List.dropWhile_cons] at h
    by_cases hp : p a
    · rw [if_pos hp] at h
      exact ih h
    · rw [if_neg hp] at h
      simp only [List.head?_cons, Option.some.injEq] at h
      subst h
      exact Bool.eq_false_iff.2 hp

/-- A right strip never ends in a whitespace character. -/
theorem last_pyRStrip {l : List Char} {c : Char}
    (h : (pyRStrip l).getLast? = some c) : pyIsSpace c = false := by
  unfold pyRStrip at h
  rw [List.getLast?_reverse] at h
  exact head_dropWhile_not h

/-- A full strip never ends in a whitespace character. -/
theorem last_pyStrip {l : List Char} {c : Char}
    (h : (pyStrip l).getLast? = some c) : pyIsSpace c = false :=
  last_pyRStrip h

/-- The right strip is a prefix of its argument. -/
theorem pyRStrip_prefix (l : List Char) : pyRStrip l <+: l := by
  unfold pyRStrip
  obtain ⟨t, ht⟩ : l.reverse.dropWhile pyIsSpace <:+ l.reverse :=
    ⟨l.reverse.takeWhile pyIsSpace, List.takeWhile_append_dropWhile pyIsSpace l.reverse⟩
  refine ⟨t.reverse, ?_⟩
  have := congrArg List.reverse ht
  simpa using this

/-- A full strip never begins with a whitespace character. -/
theorem head_pyStrip {l : List Char} {c : Char}
    (h : (pyStrip l).head? = some c) : pyIsSpace c = false := by
  unfold pyStrip at h
  obtain ⟨t, ht⟩ := pyRStrip_prefix (pyLStrip l)
  cases hr : pyRStrip (pyLStrip l) with
  | nil => rw [hr] at h; simp at h
  | cons a r =>
    rw [hr] at h
    simp only [List.head?_cons, Option.some.injEq] at h
    rw [hr] at ht
    have ha : (pyLStrip l).head? = some a := by rw [← ht]; rfl
    rw [← h]
    exact head_dropWhile_not ha

/-- A string whose character list neither begins nor ends in whitespace. -/
def noEdgeWs (s : String) : Prop :=
  (∀ c, s.data.head? = some c → pyIsSpace c = false) ∧
  (∀ c, s.data.getLast? = some c → pyIsSpace c = false)

/-- Claim C10, confirmed: every chapter returned by
`parse_chapters_by_regex` — the synthetic front-matter chapter and the
final chapter included — has stripped content: it never begins or ends
with whitespace (in particular not with a blank line). -/
theorem C10_content_stripped_confirmed :
    ∀ (tok : String → Nat) (text : List Char) (ch : PChapter),
      ch ∈ parseChaptersByRegex tok text → noEdgeWs ch.content := by
  intro tok text ch hch
  obtain ⟨⟨raw, hraw⟩, -⟩ := parse_savedOk ch hch
  rw [hraw]
  constructor
  · intro c h
    exact head_pyStrip (by simpa using h)
  · intro c h
    exact @last_pyStrip raw c (by simpa using h)

/-- Witness for C10: the front-matter chapter of a concrete document (its
content `书名` indeed ends in the non-whitespace `名`). -/
theorem C10_content_stripped_witness : pyIsSpace '名' = false := by
  have h := C10_content_stripped_confirmed lenTok
      "书名\n\n# 第一章 起\n\n正文甲\n\n# 第二章 承\n正文乙".data
      ⟨"前言/说明", "书名", 1, 0, none, 2, false, false, none⟩ (by decide)
  exact h.2 '名' (by decide)

/-! ## Intercalate / split inverses -/

/-- `intercalate` over a single piece. -/
theorem intercalate_singleton {α : Type} (sep x : List α) :
    List.intercalate sep [x] = x := by
  simp [List.intercalate]

/-- `intercalate` over a cons with nonempty tail. -/
theorem intercalate_cons_ne {α : Type} (sep x : List α) {xs : List (List α)}
    (h : xs ≠ []) :
    List.intercalate sep (x :: xs) = x ++ sep ++ List.intercalate sep xs := by
  cases xs with
  | nil => exact absurd rfl h
  | cons y ys => simp [List.intercalate]

/-- `intercalate` distributes over append of two nonempty piece lists. -/
theorem intercalate_append_ne {α : Type} (sep : List α) :
    ∀ {A B : List (List α)}, A ≠ [] → B ≠ [] →
      List.intercalate sep (A ++ B) =
        List.intercalate sep A ++ sep ++ List.intercalate sep B := by
  intro A
  induction A with
  | nil => intro B hA _; exact absurd rfl hA
  | cons x A ih =>
    intro B _ hB
    cases hA2 : A with
    | nil =>
      rw [show ([x] : List (List α)) ++ B = x :: B from rfl,
        intercalate_cons_ne sep x hB, intercalate_singleton]
    | cons z zs =>
      rw [← hA2, List.cons_append,
        intercalate_cons_ne sep x (by simp [hA2] : A ++ B ≠ []),
        intercalate_cons_ne sep x (by simp [hA2] : A ≠ []),
        ih (by simp [hA2]) hB]
      simp [List.append_assoc]

/-- A nonempty list of nonempty pieces has a nonempty flattening. -/
theorem join_ne_nil {α : Type} {A : List (List α)} (hA : A ≠ [])
    (h : ∀ p ∈ A, p ≠ []) : A.flatten ≠ [] := by
  cases A with
  | nil => exact absurd rfl hA
  | cons x xs =>
    have hx := h x (by simp)
    cases x with
    | nil => exact absurd rfl hx
    | cons c cs => simp

/-- Flattening one level of `intercalate` when every part is nonempty. -/
theorem intercalate_map_intercalate {α : Type} (sep : List α) :
    ∀ (parts : List (List (List α))), (∀ p ∈ parts, p ≠ []) →
      List.intercalate sep (parts.map (List.intercalate sep)) =
        List.intercalate sep parts.flatten := by
  intro parts
  induction parts with
  | nil => intro _; rfl
  | cons p parts ih =>
    intro h
    by_cases hp : parts = []
    · subst hp
      simp [intercalate_singleton]
    · have hmap : parts.map (List.intercalate sep) ≠ [] := by simpa using hp
      rw [List.map_cons, intercalate_cons_ne sep _ hmap, ih (fun q hq => h q (by simp [hq])),
        List.flatten_cons,
        intercalate_append_ne sep (h p (by simp))
          (join_ne_nil hp (fun q hq => h q (by simp [hq])))]

/-- The single-character split always produces at least one piece. -/
theorem splitOnChar_go_ne_nil (sep : Char) :
    ∀ (l acc : List Char), splitOnChar.go sep l acc ≠ [] := by
  intro l
  induction l with
  | nil => intro acc; simp [splitOnChar.go]
  | cons c rest ih =>
    intro acc
    rw [splitOnChar.go]
    split
    · simp
    · exact ih (c :: acc)

/-- Joining the single-character split restores the text. -/
theorem intercalate_splitOnChar_go (sep : Char) :
    ∀ (l acc : List Char),
      List.intercalate [sep] (splitOnChar.go sep l acc) = acc.reverse ++ l := by
  intro l
  induction l with
  | nil => intro acc; simp [splitOnChar.go, intercalate_singleton]
  | cons c rest ih =>
    intro acc
    rw [splitOnChar.go]
    split
    · rename_i hc
      rw [intercalate_cons_ne _ _ (splitOnChar_go_ne_nil sep rest []), ih []]
      simp [hc]
    · rw [ih (c :: acc)]
      simp

/-- `'\n'.join(text.split('\n')) == text`. -/
theorem joinNl_linesOf (l : List Char) : joinNl (linesOf l) = l := by
  unfold joinNl linesOf splitOnChar
  simpa using intercalate_splitOnChar_go '\n' l []

/-- The paragraph split always produces at least one piece. -/
theorem splitOnPar_go_ne_nil : ∀ (l acc : List Char), splitOnPar.go l acc ≠ [] := by
  intro l acc
  induction l, acc using splitOnPar.go.induct with
  | case1 rest acc ih =>
    rw [splitOnPar.go.eq_1]
    simp
  | case2 c rest acc h ih =>
    rw [splitOnPar.go.eq_2 acc c rest h]
    exact ih
  | case3 acc =>
    rw [splitOnPar.go.eq_3]
    simp

/-- Joining the paragraph split restores the content. -/
theorem joinPar_splitOnPar_go :
    ∀ (l acc : List Char), joinPar (splitOnPar.go l acc) = acc.reverse ++ l := by
  intro l acc
  induction l, acc using splitOnPar.go.induct with
  | case1 rest acc ih =>
    rw [splitOnPar.go.eq_1]
    unfold joinPar at ih ⊢
    rw [intercalate_cons_ne _ _ (splitOnPar_go_ne_nil rest []), ih]
    simp
  | case2 c rest acc h ih =>
    rw [splitOnPar.go.eq_2 acc c rest h, ih]
    simp
  | case3 acc =>
    rw [splitOnPar.go.eq_3]
    unfold joinPar
    rw [intercalate_singleton]
    simp

/-- `'\n\n'.join(content.split('\n\n')) == content`. -/
theorem joinPar_splitOnPar (l : List Char) : joinPar (splitOnPar l) = l := by
  unfold splitOnPar
  simpa using joinPar_splitOnPar_go l []

/-! ## The splitter as greedy paragraph packing

`split_large_chapter`'s loop is related to an abstract packer over
paragraph lists (`packGo`), whose output is rendered into chunk records
(`renderGo`); every C2/C6/C7 fact about chunks is proved on the packer and
transported along `foldl_sStep_eq`. -/

/-- Total token count of a paragraph list (the loop's `current_tokens`). -/
def sumTok (tok : String → Nat) (paras : List String) : Nat := (paras.map tok).sum

theorem sumTok_singleton (tok : String → Nat) (p : String) :
    sumTok tok [p] = tok p := by simp [sumTok]

theorem sumTok_snoc (tok : String → Nat) (cur : List String) (p : String) :
    sumTok tok (cur ++ [p]) = sumTok tok cur + tok p := by simp [sumTok]

/-- Render packed paragraph groups into flushed chunk records, numbering
from `k`. -/
def renderGo (tok : String → Nat) (ch : PChapter) : Nat → List (List String) → List PChapter
  | _, [] => []
  | k, part :: parts => mkFlushChunk ch k (sumTok tok part) part :: renderGo tok ch (k + 1) parts

/-- The abstract greedy packer: `packGo ps parts cur` processes the
remaining paragraphs `ps` with already-flushed groups `parts` and open
group `cur`. -/
def packGo (tok : String → Nat) (maxT : Nat) :
    List String → List (List String) → List String → List (List String) × List String
  | [], parts, cur => (parts, cur)
  | p :: ps, parts, cur =>
    if maxT < sumTok tok cur + tok p then
      if cur = [] then packGo tok maxT ps parts [p]
      else packGo tok maxT ps (parts ++ [cur]) [p]
    else packGo tok maxT ps parts (cur ++ [p])

theorem renderGo_length (tok : String → Nat) (ch : PChapter) :
    ∀ (parts : List (List String)) (k : Nat), (renderGo tok ch k parts).length = parts.length := by
  intro parts
  induction parts with
  | nil => intro k; rfl
  | cons part parts ih => intro k; simp [renderGo, ih]

theorem renderGo_snoc (tok : String → Nat) (ch : PChapter) :
    ∀ (parts : List (List String)) (k : Nat) (cur : List String),
      renderGo tok ch k (parts ++ [cur]) =
        renderGo tok ch k parts ++ [mkFlushChunk ch (k + parts.length) (sumTok tok cur) cur] := by
  intro parts
  induction parts with
  | nil => intro k cur; simp [renderGo]
  | cons part parts ih =>
    intro k cur
    simp only [List.cons_append, renderGo, List.append_eq]
    rw [ih (k + 1) cur, show k + 1 + parts.length = k + (parts.length + 1) by omega]
    simp

/-- The loop state reached from canonical data stays canonical and follows
the abstract packer. -/
theorem foldl_sStep_eq (tok : String → Nat) (ch : PChapter) (maxT : Nat) :
    ∀ (ps : List String) (parts : List (List String)) (cur : List String),
      ps.foldl (sStep tok ch maxT)
          ⟨renderGo tok ch 1 parts, cur, sumTok tok cur, parts.length + 1⟩ =
        ⟨renderGo tok ch 1 (packGo tok maxT ps parts cur).1,
         (packGo tok maxT ps parts cur).2,
         sumTok tok (packGo tok maxT ps parts cur).2,
         (packGo tok maxT ps parts cur).1.length + 1⟩ := by
  intro ps
  induction ps with
  | nil => intro parts cur; simp [packGo]
  | cons p ps ih =>
    intro parts cur
    rw [List.foldl_cons]
    by_cases hover : maxT < sumTok tok cur + tok p
    · by_cases hcur : cur = []
      · subst hcur
        have hstep : sStep tok ch maxT
            ⟨renderGo tok ch 1 parts, [], sumTok tok [], parts.length + 1⟩ p =
            ⟨renderGo tok ch 1 parts, [p], sumTok tok [p], parts.length + 1⟩ := by
          simp only [sStep]
          rw [if_pos hover, if_neg (by simp)]
          simp [sumTok]
        rw [hstep, ih]
        have hpack : packGo tok maxT (p :: ps) parts [] = packGo tok maxT ps parts [p] := by
          rw [packGo, if_pos hover, if_pos rfl]
        rw [hpack]
      · have hstep : sStep tok ch maxT
            ⟨renderGo tok ch 1 parts, cur, sumTok tok cur, parts.length + 1⟩ p =
            ⟨renderGo tok ch 1 (parts ++ [cur]), [p], sumTok tok [p],
             (parts ++ [cur]).length + 1⟩ := by
          simp only [sStep]
          rw [if_pos hover, if_pos hcur]
          rw [renderGo_snoc]
          simp [sumTok, Nat.add_comm]
        rw [hstep, ih]
        have hpack : packGo tok maxT (p :: ps) parts cur = packGo tok maxT ps (parts ++ [cur]) [p] := by
          rw [packGo, if_pos hover, if_neg hcur]
        rw [hpack]
    · have hstep : sStep tok ch maxT
          ⟨renderGo tok ch 1 parts, cur, sumTok tok cur, parts.length + 1⟩ p =
          ⟨renderGo tok ch 1 parts, cur ++ [p], sumTok tok (cur ++ [p]), parts.length + 1⟩ := by
        simp only [sStep]
        rw [if_neg hover]
        simp [sumTok_snoc]
      rw [hstep, ih]
      have hpack : packGo tok maxT (p :: ps) parts cur = packGo tok maxT ps parts (cur ++ [p]) := by
        rw [packGo, if_neg hover]
      rw [hpack]

/-- Accounting: packed groups plus the open group hold exactly the
processed paragraphs, in order. -/
theorem packGo_flatten (tok : String → Nat) (maxT : Nat) :
    ∀ (ps : List String) (parts : List (List String)) (cur : List String),
      (packGo tok maxT ps parts cur).1.flatten ++ (packGo tok maxT ps parts cur).2 =
        parts.flatten ++ cur ++ ps := by
  intro ps
  induction ps with
  | nil => intro parts cur; simp [packGo]
  | cons p ps ih =>
    intro parts cur
    rw [packGo]
    by_cases hover : maxT < sumTok tok cur + tok p
    · rw [if_pos hover]
      by_cases hcur : cur = []
      · subst hcur
        rw [if_pos rfl, ih]
        simp
      · rw [if_neg hcur, ih]
        simp
    · rw [if_neg hover, ih]
      simp

/-- Emitted groups are nonempty and within the budget unless they are a
single oversized paragraph; the open group likewise when nonempty. -/
theorem packGo_bounds (tok : String → Nat) (maxT : Nat) :
    ∀ (ps : List String) (parts : List (List String)) (cur : List String),
      (∀ q ∈ parts, q ≠ [] ∧ (sumTok tok q ≤ maxT ∨ q.length = 1)) →
      (cur = [] ∨ sumTok tok cur ≤ maxT ∨ cur.length = 1) →
      (∀ q ∈ (packGo tok maxT ps parts cur).1,
        q ≠ [] ∧ (sumTok tok q ≤ maxT ∨ q.length = 1)) ∧
      ((packGo tok maxT ps parts cur).2 = [] ∨
        sumTok tok (packGo tok maxT ps parts cur).2 ≤ maxT ∨
        (packGo tok maxT ps parts cur).2.length = 1) := by
  intro ps
  induction ps with
  | nil => intro parts cur hparts hcur; exact ⟨hparts, hcur⟩
  | cons p ps ih =>
    intro parts cur hparts hcur
    rw [packGo]
    by_cases hover : maxT < sumTok tok cur + tok p
    · rw [if_pos hover]
      by_cases hc : cur = []
      · rw [if_pos hc]
        exact ih parts [p] hparts (Or.inr (Or.inr rfl))
      · rw [if_neg hc]
        refine ih (parts ++ [cur]) [p] ?_ (Or.inr (Or.inr rfl))
        intro q hq
        rw [List.mem_append] at hq
        rcases hq with hq | hq
        · exact hparts q hq
        · rw [List.mem_singleton] at hq
          subst hq
          rcases hcur with h | h
          · exact absurd h hc
          · exact ⟨hc, h⟩
    · rw [if_neg hover]
      refine ih parts (cur ++ [p]) hparts (Or.inr (Or.inl ?_))
      rw [sumTok_snoc]
      omega

/-- The open group is nonempty as soon as anything has been packed. -/
theorem packGo_cur_ne (tok : String → Nat) (maxT : Nat) :
    ∀ (ps : List String) (parts : List (List String)) (cur : List String),
      (cur ≠ [] ∨ ps ≠ []) → (packGo tok maxT ps parts cur).2 ≠ [] := by
  intro ps
  induction ps with
  | nil =>
    intro parts cur h
    rcases h with h | h
    · exact h
    · exact absurd rfl h
  | cons p ps ih =>
    intro parts cur h
    rw [packGo]
    by_cases hover : maxT < sumTok tok cur + tok p
    · rw [if_pos hover]
      by_cases hc : cur = []
      · rw [if_pos hc]
        exact ih parts [p] (Or.inl (by simp))
      · rw [if_neg hc]
        exact ih (parts ++ [cur]) [p] (Or.inl (by simp))
    · rw [if_neg hover]
      exact ih parts (cur ++ [p]) (Or.inl (by simp))

/-- A packing whose paragraphs all fit in the budget never flushes. -/
theorem packGo_no_overflow (tok : String → Nat) (maxT : Nat) :
    ∀ (ps : List String) (parts : List (List String)) (cur : List String),
      sumTok tok cur + sumTok tok ps ≤ maxT →
      packGo tok maxT ps parts cur = (parts, cur ++ ps) := by
  intro ps
  induction ps with
  | nil => intro parts cur _; simp [packGo]
  | cons p ps ih =>
    intro parts cur h
    have hsum : sumTok tok (p :: ps) = tok p + sumTok tok ps := by simp [sumTok]
    rw [packGo, if_neg (by omega : ¬ maxT < sumTok tok cur + tok p),
      ih parts (cur ++ [p]) (by rw [sumTok_snoc]; omega)]
    simp

/-- Flushed groups only accumulate. -/
theorem packGo_parts_prefix (tok : String → Nat) (maxT : Nat) :
    ∀ (ps : List String) (parts : List (List String)) (cur : List String),
      parts <+: (packGo tok maxT ps parts cur).1 := by
  intro ps
  induction ps with
  | nil => intro parts cur; exact List.prefix_rfl
  | cons p ps ih =>
    intro parts cur
    rw [packGo]
    by_cases hover : maxT < sumTok tok cur + tok p
    · rw [if_pos hover]
      by_cases hc : cur = []
      · rw [if_pos hc]
        exact ih parts [p]
      · rw [if_neg hc]
        exact List.IsPrefix.trans (by simp) (ih (parts ++ [cur]) [p])
    · rw [if_neg hover]
      exact ih parts (cur ++ [p])

/-- If nothing was flushed starting from an open group, everything fitted
(or nothing followed). -/
theorem packGo_parts_nil (tok : String → Nat) (maxT : Nat) :
    ∀ (ps : List String) (cur : List String), cur ≠ [] →
      (packGo tok maxT ps [] cur).1 = [] →
      ps = [] ∨ sumTok tok (cur ++ ps) ≤ maxT := by
  intro ps
  induction ps with
  | nil => intro cur _ _; exact Or.inl rfl
  | cons p ps ih =>
    intro cur hcur h
    rw [packGo] at h
    by_cases hover : maxT < sumTok tok cur + tok p
    · rw [if_pos hover, if_neg hcur] at h
      have hpre := packGo_parts_prefix tok maxT ps ([] ++ [cur]) [p]
      rw [h] at hpre
      simp at hpre
    · rw [if_neg hover] at h
      rcases ih (cur ++ [p]) (by simp) h with h2 | h2
      · subst h2
        right
        rw [sumTok_snoc]
        omega
      · right
        rw [show cur ++ p :: ps = (cur ++ [p]) ++ ps from by simp]
        exact h2

example : extractChapterNumber "第十二章".data = some 12 := by decide
example : extractChapterNumber "第三章".data = some 3 := by decide
example : extractChapterNumber "Chapter 7".data = some 7 := by decide
example : extractChapterNumber "第十章".data = some 10 := by decide
example : extractChapterNumber "某某某".data = none := by decide
example : extractChapterNumber "第0章".data = some 0 := by decide
example : extractChapterNumber "第零章".data = none := by decide
example : extractNumber "第二十一章".data = some 21 := by decide
example : extractNumber "abc 45 def".data = some 45 := by decide
example : matchLeadingInt "12abc".data = none := by decide
example : matchLeadingInt "12 abc".data = some 12 := by decide


/-- The paragraphs `split_large_chapter` works over. -/
def splitParas (ch : PChapter) : List String :=
  (splitOnPar ch.content.data).map String.mk

theorem splitParas_ne_nil (ch : PChapter) : splitParas ch ≠ [] := by
  unfold splitParas splitOnPar
  intro h
  rw [List.map_eq_nil_iff] at h
  exact splitOnPar_go_ne_nil ch.content.data [] h

/-- `split_large_chapter` is the rendering of the abstract packer followed
by the trailing chunk (the open group is never empty because the paragraph
list is never empty, and hence the chunk list is never empty either). -/
theorem splitLargeChapter_eq (tok : String → Nat) (ch : PChapter) (maxT : Nat) :
    splitLargeChapter tok ch maxT =
      renderGo tok ch 1 (packGo tok maxT (splitParas ch) [] []).1 ++
        [finalChunk ch
          ⟨renderGo tok ch 1 (packGo tok maxT (splitParas ch) [] []).1,
           (packGo tok maxT (splitParas ch) [] []).2,
           sumTok tok (packGo tok maxT (splitParas ch) [] []).2,
           (packGo tok maxT (splitParas ch) [] []).1.length + 1⟩] := by
  have hfold := foldl_sStep_eq tok ch maxT (splitParas ch) [] []
  have hcur := packGo_cur_ne tok maxT (splitParas ch) [] []
    (Or.inr (splitParas_ne_nil ch))
  simp only [splitLargeChapter]
  rw [show (⟨[], [], 0, 1⟩ : SState) =
      (⟨renderGo tok ch 1 [], [], sumTok tok [],
        ([] : List (List String)).length + 1⟩ : SState) from rfl]
  rw [show ((splitOnPar ch.content.data).map String.mk) = splitParas ch from rfl]
  rw [hfold]
  rw [if_neg hcur]
  rw [if_neg (by simp)]

/-- Exactly one chunk results iff the content is a single paragraph or the
total token count fits the budget. -/
theorem packGo_parts_nil_iff (tok : String → Nat) (maxT : Nat) (ps : List String)
    (hne : ps ≠ []) :
    (packGo tok maxT ps [] []).1 = [] ↔ (ps.length = 1 ∨ sumTok tok ps ≤ maxT) := by
  constructor
  · intro h
    cases ps with
    | nil => exact absurd rfl hne
    | cons p ps2 =>
      cases ps2 with
      | nil => exact Or.inl rfl
      | cons q qs =>
        have hstep : packGo tok maxT (p :: q :: qs) [] [] =
            packGo tok maxT (q :: qs) [] [p] := by
          rw [packGo]
          by_cases hover : maxT < sumTok tok [] + tok p
          · rw [if_pos hover, if_pos rfl]
          · rw [if_neg hover]
            rfl
        rw [hstep] at h
        rcases packGo_parts_nil tok maxT (q :: qs) [p] (by simp) h with h2 | h2
        · exact absurd h2 (by simp)
        · right
          exact h2
  · intro h
    rcases h with h | h
    · cases ps with
      | nil => simp at h
      | cons p ps2 =>
        have hps2 : ps2 = [] := by
          simpa using h
        subst hps2
        rw [packGo]
        by_cases hover : maxT < sumTok tok [] + tok p
        · rw [if_pos hover, if_pos rfl]
          rfl
        · rw [if_neg hover]
          rfl
    · rw [packGo_no_overflow tok maxT ps [] [] (by simpa [sumTok] using h)]

/-- Chunk contents rendered from groups. -/
theorem renderGo_map_content (tok : String → Nat) (ch : PChapter) :
    ∀ (parts : List (List String)) (k : Nat),
      (renderGo tok ch k parts).map (fun c => c.content) = parts.map joinParS := by
  intro parts
  induction parts with
  | nil => intro k; rfl
  | cons part parts ih => intro k; simp [renderGo, mkFlushChunk, ih]

/-- Chunk orders rendered from groups: chunk `k = j+1+i` carries
`order + (k-1)` tenths. -/
theorem renderGo_map_order (tok : String → Nat) (ch : PChapter) :
    ∀ (parts : List (List String)) (j : Nat),
      (renderGo tok ch (j + 1) parts).map (fun c => c.order) =
        (List.range parts.length).map (fun i => ch.order + ((j + i : Nat) : Int)) := by
  intro parts
  induction parts with
  | nil => intro j; rfl
  | cons part parts ih =>
    intro j
    simp only [renderGo, List.map_cons, List.length_cons, List.range_succ_eq_map,
      List.map_map]
    congr 1
    rw [ih (j + 1)]
    apply List.map_congr_left
    intro i _
    simp only [Function.comp_apply]
    congr 1
    omega

/-- Chunk token counts rendered from groups. -/
theorem renderGo_map_token (tok : String → Nat) (ch : PChapter) :
    ∀ (parts : List (List String)) (k : Nat),
      (renderGo tok ch k parts).map (fun c => c.tokenCount) = parts.map (sumTok tok) := by
  intro parts
  induction parts with
  | nil => intro k; rfl
  | cons part parts ih => intro k; simp [renderGo, mkFlushChunk, ih]

/-- Every rendered chunk comes from one group, with matching content and
token sum. -/
theorem mem_renderGo (tok : String → Nat) (ch : PChapter) :
    ∀ {parts : List (List String)} {k : Nat} {c : PChapter},
      c ∈ renderGo tok ch k parts →
      ∃ part ∈ parts, c.content = joinParS part ∧ c.tokenCount = sumTok tok part := by
  intro parts
  induction parts with
  | nil => intro k c h; simp [renderGo] at h
  | cons part parts ih =>
    intro k c h
    rw [renderGo, List.mem_cons] at h
    rcases h with h | h
    · subst h
      exact ⟨part, by simp, rfl, rfl⟩
    · obtain ⟨q, hq, h1, h2⟩ := ih h
      exact ⟨q, by simp [hq], h1, h2⟩

/-- Unfolding `joinParS` of a list of already-joined groups. -/
theorem joinParS_map (P : List (List String)) (h : ∀ p ∈ P, p ≠ []) :
    joinParS (P.map joinParS) = joinParS P.flatten := by
  have key : ((P.map joinParS).map (fun s => s.data)) =
      ((P.map (fun p => p.map (fun s => s.data))).map (List.intercalate ['\n', '\n'])) := by
    simp only [List.map_map]
    apply List.map_congr_left
    intro p _
    rfl
  have key2 : List.intercalate ['\n', '\n'] ((P.map joinParS).map (fun s => s.data)) =
      List.intercalate ['\n', '\n'] ((P.flatten).map (fun s => s.data)) := by
    rw [key, intercalate_map_intercalate _ _ ?hne]
    case hne =>
      intro q hq
      rw [List.mem_map] at hq
      obtain ⟨p, hp, rfl⟩ := hq
      simpa using h p hp
    congr 1
    simp [List.map_flatten]
  exact congrArg String.mk key2

/-- Rejoining the split paragraphs restores the chapter content. -/
theorem joinParS_splitParas (ch : PChapter) : joinParS (splitParas ch) = ch.content := by
  have h1 : (splitParas ch).map (fun s => s.data) = splitOnPar ch.content.data := by
    unfold splitParas
    rw [List.map_map]
    have hid : ((fun s : String => s.data) ∘ String.mk) = id := funext fun x => rfl
    rw [hid, List.map_id]
  have h2 : joinPar ((splitParas ch).map (fun s => s.data)) = ch.content.data := by
    rw [h1, joinPar_splitOnPar]
  exact congrArg String.mk h2

/-! ## Claim C2 — splitter postconditions -/

/-- Claim C2, corrected: the chunks partition the blank-line-delimited
paragraphs in order; joining the chunk contents with the paragraph
separator reconstructs the parent content exactly; every chunk holds at
least one paragraph (but a chunk can be the empty string when its sole
paragraph is empty); each chunk's reported token count — the sum of its
paragraphs' token counts — is at most the threshold except for a chunk
made of a single paragraph; and exactly 1 chunk results iff the content is
a single paragraph or its total token count fits the threshold (so at
least 2 chunks result exactly when there are ≥ 2 paragraphs whose total
exceeds the threshold, not merely when one paragraph exceeds it). -/
theorem C2_splitter_amended :
    ∀ (tok : String → Nat) (ch : PChapter) (maxT : Nat), 0 < maxT →
      ∃ partition : List (List String),
        partition.flatten = splitParas ch ∧
        (∀ part ∈ partition, part ≠ []) ∧
        (splitLargeChapter tok ch maxT).map (fun c => c.content) = partition.map joinParS ∧
        joinParS ((splitLargeChapter tok ch maxT).map (fun c => c.content)) = ch.content ∧
        (∀ c ∈ splitLargeChapter tok ch maxT, ∃ part ∈ partition,
          c.content = joinParS part ∧ c.tokenCount = sumTok tok part ∧
          (c.tokenCount ≤ maxT ∨ part.length = 1)) ∧
        ((splitLargeChapter tok ch maxT).length = 1 ↔
          ((splitParas ch).length = 1 ∨ sumTok tok (splitParas ch) ≤ maxT)) := by
  intro tok ch maxT _
  have hne := splitParas_ne_nil ch
  have hcur : (packGo tok maxT (splitParas ch) [] []).2 ≠ [] :=
    packGo_cur_ne tok maxT _ [] [] (Or.inr hne)
  have hbounds := packGo_bounds tok maxT (splitParas ch) [] [] (by simp) (Or.inl rfl)
  have hflat := packGo_flatten tok maxT (splitParas ch) [] []
  have heq := splitLargeChapter_eq tok ch maxT
  have hall : ∀ part ∈ (packGo tok maxT (splitParas ch) [] []).1 ++
      [(packGo tok maxT (splitParas ch) [] []).2], part ≠ [] := by
    intro part hpart
    rw [List.mem_append, List.mem_singleton] at hpart
    rcases hpart with hp | hp
    · exact (hbounds.1 part hp).1
    · subst hp
      exact hcur
  have hcontents : (splitLargeChapter tok ch maxT).map (fun c => c.content) =
      ((packGo tok maxT (splitParas ch) [] []).1 ++
        [(packGo tok maxT (splitParas ch) [] []).2]).map joinParS := by
    rw [heq, List.map_append, renderGo_map_content]
    simp [finalChunk]
  have hflat2 : ((packGo tok maxT (splitParas ch) [] []).1 ++
      [(packGo tok maxT (splitParas ch) [] []).2]).flatten = splitParas ch := by
    rw [List.flatten_append]
    simpa using hflat
  refine ⟨(packGo tok maxT (splitParas ch) [] []).1 ++
    [(packGo tok maxT (splitParas ch) [] []).2], hflat2, hall, hcontents, ?_, ?_, ?_⟩
  · rw [hcontents, joinParS_map _ hall, hflat2, joinParS_splitParas]
  · intro c hc
    rw [heq, List.mem_append, List.mem_singleton] at hc
    rcases hc with hc | hc
    · obtain ⟨part, hp, h1, h2⟩ := mem_renderGo tok ch hc
      refine ⟨part, by simp [hp], h1, h2, ?_⟩
      rcases (hbounds.1 part hp).2 with hb | hb
      · left
        rw [h2]
        exact hb
      · right
        exact hb
    · subst hc
      refine ⟨(packGo tok maxT (splitParas ch) [] []).2, by simp, rfl, rfl, ?_⟩
      rcases hbounds.2 with hb | hb | hb
      · exact absurd hb hcur
      · exact Or.inl hb
      · exact Or.inr hb
  · rw [heq, List.length_append, renderGo_length]
    simp only [List.length_singleton]
    constructor
    · intro h
      have h0 : (packGo tok maxT (splitParas ch) [] []).1.length = 0 := by omega
      rw [List.length_eq_zero] at h0
      exact (packGo_parts_nil_iff tok maxT _ hne).1 h0
    · intro h
      have h0 := (packGo_parts_nil_iff tok maxT _ hne).2 h
      rw [h0]
      rfl

/-- Witness for C2: the reconstruction equation at a concrete split. -/
theorem C2_splitter_witness :
    joinParS ((splitLargeChapter lenTok (sampleChapter "aa\n\nbb\n\ncc" 0) 5).map
      (fun c => c.content)) = "aa\n\nbb\n\ncc" := by
  obtain ⟨P, h1, h2, h3, h4, h5, h6⟩ :=
    C2_splitter_amended lenTok (sampleChapter "aa\n\nbb\n\ncc" 0) 5 (by decide)
  exact h4

/-- The claim as stated is false: a two-paragraph chapter under the
threshold yields one chunk (not ≥ 2, and its content is not a single
oversized paragraph), and a chapter whose first paragraph is empty yields
an empty chunk. -/
theorem C2_splitter_counterexample :
    (splitLargeChapter lenTok (sampleChapter "a\n\nb" 0) 100).length = 1 ∧
    (splitParas (sampleChapter "a\n\nb" 0)).length = 2 ∧
    ¬ 100 < lenTok "a" ∧ ¬ 100 < lenTok "b" ∧
    (splitLargeChapter lenTok (sampleChapter "\n\nBIG" 0) 1).map (fun c => c.content) =
      ["", "BIG"] := by
  exact ⟨by decide, by decide, by decide, by decide, by decide⟩

/-! ## Claim C6 — token-count accuracy -/

/-- Claim C6, corrected: every chapter of `parse_chapters_by_regex` has
`token_count` recomputed from its final content; but a chunk of
`split_large_chapter` reports the *sum of its paragraphs'* token counts,
which ignores the `\n\n` separators joined back into its content and so
can differ from the token count of the content string. -/
theorem C6_tokencount_amended :
    (∀ (tok : String → Nat) (text : List Char) (c : PChapter),
      c ∈ parseChaptersByRegex tok text → c.tokenCount = tok c.content) ∧
    (∀ (tok : String → Nat) (ch : PChapter) (maxT : Nat) (c : PChapter),
      c ∈ splitLargeChapter tok ch maxT →
      ∃ part : List String, c.content = joinParS part ∧ c.tokenCount = sumTok tok part) := by
  constructor
  · intro tok text c hc
    exact (parse_savedOk c hc).2
  · intro tok ch maxT c hc
    rw [splitLargeChapter_eq, List.mem_append, List.mem_singleton] at hc
    rcases hc with hc | hc
    · obtain ⟨part, _, h1, h2⟩ := mem_renderGo tok ch hc
      exact ⟨part, h1, h2⟩
    · subst hc
      exact ⟨(packGo tok maxT (splitParas ch) [] []).2, rfl, rfl⟩

/-- Witness for C6: a parsed chapter whose token count equals the count of
its content. -/
theorem C6_tokencount_witness :
    (⟨"前言/说明", "书名", 1, 0, none, 2, false, false, none⟩ : PChapter).tokenCount =
      lenTok (⟨"前言/说明", "书名", 1, 0, none, 2, false, false, none⟩ : PChapter).content := by
  exact C6_tokencount_amended.1 lenTok
    "书名\n\n# 第一章 起\n\n正文甲\n\n# 第二章 承\n正文乙".data _ (by decide)

/-- The claim as stated is false: the sole chunk of `"a\n\nb"` reports
token count 2 while its content counts 4 tokens under the same counter. -/
theorem C6_tokencount_counterexample :
    (splitLargeChapter lenTok (sampleChapter "a\n\nb" 0) 100).map
      (fun c => (c.tokenCount, lenTok c.content)) = [(2, 4)] ∧ (2 : Nat) ≠ 4 := by
  exact ⟨by decide, by decide⟩

/-! ## Claim C7 — order invariants -/

/-- The loop invariant tying `chapter_order` to the saved orders. -/
def OrderInv (st : RState) : Prop :=
  st.chapters.map (fun c => c.order) =
    (List.range st.chapters.length).map (fun k : Nat => 10 * (k : Int)) ∧
  (∀ c, st.current = some c → c.order = 10 * (st.chapters.length : Int) ∧
    st.order = st.chapters.length + 1) ∧
  (st.current = none → st.order = st.chapters.length)

theorem saveCurrent_length_eq {tok : String → Nat} {st : RState} (h : OrderInv st) :
    st.order = (saveCurrent tok st).length := by
  unfold saveCurrent
  cases hc : st.current with
  | none => exact h.2.2 hc
  | some c =>
    simp only [List.length_append, List.length_singleton]
    exact (h.2.1 c hc).2

theorem saveCurrent_orders {tok : String → Nat} {st : RState} (h : OrderInv st) :
    (saveCurrent tok st).map (fun c => c.order) =
      (List.range (saveCurrent tok st).length).map (fun k : Nat => 10 * (k : Int)) := by
  unfold saveCurrent
  cases hc : st.current with
  | none => exact h.1
  | some c =>
    simp only [List.map_append, List.length_append, List.length_singleton,
      List.map_cons, List.map_nil]
    rw [List.range_succ, List.map_append, h.1]
    simp [(h.2.1 c hc).1]

theorem orderInv_contentUpdate {st : RState} {cur : Option PChapter}
    {buf : List (List Char)} (h : OrderInv st) (hcur : st.current = cur) :
    OrderInv { chapters := st.chapters, current := cur, content := buf,
               order := st.order, inToc := st.inToc } := by
  subst hcur
  exact h

theorem orderInv_step (tok : String → Nat) (st : RState) (line : List Char)
    (h : OrderInv st) : OrderInv (rStep tok st line) := by
  have hsave := @saveCurrent_orders tok st h
  have hlen := @saveCurrent_length_eq tok st h
  by_cases hm : combinedMatch (pyStrip line)
  · simp only [rStep, hm, if_true]
    split
    · cases hcur : st.current with
      | some c =>
        split
        · exact orderInv_contentUpdate h hcur
        · rename_i heq
          exact Option.noConfusion heq
      | none =>
        split
        · rename_i c' heq
          exact Option.noConfusion heq
        · exact h
    · refine ⟨hsave, fun c hc => ?_, fun hc => ?_⟩
      · have hc2 : mkChapter (titleOf (pyStrip line)) st.order = c := Option.some.inj hc
        subst hc2
        refine ⟨?_, ?_⟩
        · show 10 * (st.order : Int) = 10 * (((saveCurrent tok st).length : Nat) : Int)
          rw [hlen]
        · show st.order + 1 = (saveCurrent tok st).length + 1
          rw [hlen]
      · simp at hc
  · simp only [rStep, hm, Bool.false_eq_true, if_false]
    cases hcur : st.current with
    | some c =>
      split
      · exact orderInv_contentUpdate h hcur
      · rename_i heq
        exact Option.noConfusion heq
    | none =>
      split
      · rename_i c' heq
        exact Option.noConfusion heq
      · split
        · split
          · refine ⟨h.1, fun c hc => ?_, fun hc => ?_⟩
            · have hc2 : mkFront st.order = c := Option.some.inj hc
              subst hc2
              have hord := h.2.2 hcur
              refine ⟨?_, ?_⟩
              · show 10 * (st.order : Int) = 10 * ((st.chapters.length : Nat) : Int)
                rw [hord]
              · show st.order + 1 = st.chapters.length + 1
                rw [hord]
            · simp at hc
          · exact orderInv_contentUpdate h hcur
        · exact h

theorem orderInv_foldl (tok : String → Nat) :
    ∀ (lines : List (List Char)) (st : RState),
      OrderInv st → OrderInv (lines.foldl (rStep tok) st) := by
  intro lines
  induction lines with
  | nil => intro st h; exact h
  | cons l rest ih => intro st h; exact ih _ (orderInv_step tok st l h)

/-- The orders of a parse run are exactly `0, 1, 2, …` (stored ×10). -/
theorem parse_orders (tok : String → Nat) (text : List Char) :
    (parseChaptersByRegex tok text).map (fun c => c.order) =
      (List.range (parseChaptersByRegex tok text).length).map (fun k : Nat => 10 * (k : Int)) := by
  unfold parseChaptersByRegex
  exact saveCurrent_orders (orderInv_foldl tok _ _ ⟨rfl, by simp, fun _ => rfl⟩)

/-- Claim C7, corrected: across one parse run the order values are
`0, 1, 2, …` — unique and strictly increasing in document order; a split
chapter's chunks carry orders `parent + (k-1)*0.1` (here `+ (k-1)` on the
×10 scale), contiguous and strictly increasing, and they stay strictly
below the next sibling's order only when at most 10 chunks are produced —
an 11th chunk collides with the next chapter's order. -/
theorem C7_order_amended :
    (∀ (tok : String → Nat) (text : List Char),
      (parseChaptersByRegex tok text).map (fun c => c.order) =
        (List.range (parseChaptersByRegex tok text).length).map (fun k : Nat => 10 * (k : Int)) ∧
      List.Pairwise (· < ·) ((parseChaptersByRegex tok text).map (fun c => c.order))) ∧
    (∀ (tok : String → Nat) (ch : PChapter) (maxT : Nat),
      (splitLargeChapter tok ch maxT).map (fun c => c.order) =
        (List.range (splitLargeChapter tok ch maxT).length).map
          (fun k : Nat => ch.order + (k : Int)) ∧
      (∀ c ∈ splitLargeChapter tok ch maxT,
        ch.order ≤ c.order ∧
        ((splitLargeChapter tok ch maxT).length ≤ 10 → c.order < ch.order + 10))) := by
  constructor
  · intro tok text
    refine ⟨parse_orders tok text, ?_⟩
    rw [parse_orders tok text]
    refine List.Pairwise.map _ (fun a b hab => ?_) (List.pairwise_lt_range _)
    omega
  · intro tok ch maxT
    have hmap : (splitLargeChapter tok ch maxT).map (fun c => c.order) =
        (List.range (splitLargeChapter tok ch maxT).length).map
          (fun k : Nat => ch.order + (k : Int)) := by
      rw [splitLargeChapter_eq tok ch maxT]
      rw [List.map_append, List.length_append, renderGo_length]
      simp only [List.map_cons, List.map_nil, List.length_cons, List.length_nil]
      rw [renderGo_map_order tok ch _ 0]
      rw [show (packGo tok maxT (splitParas ch) [] []).1.length + (0 + 1) =
        (packGo tok maxT (splitParas ch) [] []).1.length + 1 by omega]
      rw [List.range_succ, List.map_append]
      congr 1
      apply List.map_congr_left
      intro i _
      norm_num
    refine ⟨hmap, fun c hc => ?_⟩
    have hco : c.order ∈ (splitLargeChapter tok ch maxT).map (fun c => c.order) :=
      List.mem_map_of_mem _ hc
    rw [hmap] at hco
    obtain ⟨k, hk, hck⟩ := List.mem_map.1 hco
    rw [List.mem_range] at hk
    constructor
    · rw [← hck]
      omega
    · intro hlen
      rw [← hck]
      have : k < 10 := by omega
      omega

/-- Witness for C7: the second chunk of a two-chunk split sits strictly
between its parent order and the next sibling. -/
theorem C7_order_witness : (10 : Int) ≤ 11 ∧ (11 : Int) < 10 + 10 := by
  have h := (C7_order_amended.2 lenTok (sampleChapter "aa\n\nbb\n\ncc" 10) 5).2
      ⟨"第一章 甲 (Part 2)", "cc", 1, 11, some 1, 2, false, true, some 2⟩ (by decide)
  exact ⟨h.1, h.2 (by decide)⟩

/-- A two-chapter document whose first chapter holds 11 oversized
paragraphs. -/
def c7doc : String :=
  "# 第一章 甲\naa\n\nbb\n\ncc\n\ndd\n\nee\n\nff\n\ngg\n\nhh\n\nii\n\njj\n\nkk\n# 第二章 乙\n正文"

/-- The first chapter record `parse_chapters_by_regex` builds for it. -/
def c7ch : PChapter :=
  ⟨"第一章 甲", "aa\n\nbb\n\ncc\n\ndd\n\nee\n\nff\n\ngg\n\nhh\n\nii\n\njj\n\nkk",
   1, 0, some 1, 42, false, false, none⟩

/-- The claim as stated is false: splitting the first chapter (order 0) at
threshold 1 yields 11 chunks, and the 11th chunk's order `0 + 10*0.1 = 1`
collides with the second chapter's order 1 (both `10` on the ×10 scale). -/
theorem C7_order_counterexample :
    (parseChaptersByRegex lenTok c7doc.data).map (fun c => c.order) = [0, 10] ∧
    (parseChaptersByRegex lenTok c7doc.data).head? = some c7ch ∧
    (splitLargeChapter lenTok c7ch 1).map (fun c => c.order) =
      [0, 1, 2, 3, 4, 5, 6, 7, 8, 9, 10] := by
  exact ⟨by decide, by decide, by decide⟩

/-! ## Claim C1 / C8 machinery — slicing and degenerate runs -/

/-- Candidate construction needs a markdown heading in chapter mode. -/
theorem candStep_eq_nil {i : Nat} {l : List Char} {pb nb : Nat}
    (h : ¬ isMdHeading l) : candStep i l pb nb = [] := by
  unfold candStep
  split
  · rfl
  · simp [h]

/-- No markdown headings, no candidates. -/
theorem buildCands_go_nil :
    ∀ {i : Nat} {ls : List (List Char)} {pbs nbs : List Nat},
      (∀ l ∈ ls, ¬ isMdHeading l) → buildCands.go i ls pbs nbs = [] := by
  intro i ls
  induction ls generalizing i with
  | nil => intro pbs nbs _; rfl
  | cons l ls ih =>
    intro pbs nbs h
    match pbs, nbs with
    | [], _ => rfl
    | _ :: _, [] => rfl
    | pb :: pbs, nb :: nbs =>
      rw [buildCands.go, candStep_eq_nil (h l (by simp)), List.nil_append]
      exact ih (fun l hl => h l (by simp [hl]))

theorem buildCands_nil (lines : List (List Char))
    (h : ∀ l ∈ lines, ¬ isMdHeading l) : buildCands lines = [] :=
  buildCands_go_nil h

/-- No markdown headings, no fallback candidates either. -/
theorem fallbackCands_go_nil :
    ∀ {i : Nat} {ls : List (List Char)},
      (∀ l ∈ ls, ¬ isMdHeading l) → fallbackCands.go i ls = [] := by
  intro i ls
  induction ls generalizing i with
  | nil => intro _; rfl
  | cons l ls ih =>
    intro h
    rw [fallbackCands.go]
    have hmd : isMdHeading l = false := by
      have := h l (by simp)
      simpa using this
    rw [if_neg (by simp [hmd]), List.nil_append]
    exact ih (fun l hl => h l (by simp [hl]))

theorem fallbackCands_nil (lines : List (List Char))
    (h : ∀ l ∈ lines, ¬ isMdHeading l) : fallbackCands lines = [] :=
  fallbackCands_go_nil h

/-- With no markdown heading anywhere, `select_chapter_heads` returns
nothing. -/
theorem selectChapterHeads_nil (lines : List (List Char))
    (h : ∀ l ∈ lines, ¬ isMdHeading l) : selectChapterHeads lines = [] := by
  simp only [selectChapterHeads]
  rw [buildCands_nil lines h]
  simp only [List.map_nil, List.filter_nil]
  rw [if_pos trivial, fallbackCands_nil lines h]
  rfl

/-- No TOC-pattern line, no TOC entries. -/
theorem parseToc_go_nil :
    ∀ {i : Nat} {ls : List (List Char)},
      (∀ l ∈ ls, tocLineMatch (pyStrip l) = none) → parseTocChapters.go i ls = [] := by
  intro i ls
  induction ls generalizing i with
  | nil => intro _; rfl
  | cons l ls ih =>
    intro h
    rw [parseTocChapters.go, h l (by simp), List.nil_append]
    exact ih (fun l hl => h l (by simp [hl]))

theorem parseTocChapters_nil (lines : List (List Char))
    (h : ∀ l ∈ lines, tocLineMatch (pyStrip l) = none) : parseTocChapters lines = [] :=
  parseToc_go_nil h

theorem findBodyChapterStarts_nil (lines : List (List Char)) :
    findBodyChapterStarts lines [] = [] := rfl

/-- With neither markdown headings nor TOC lines, `segment_file` finds no
heads. -/
theorem segmentHeads_nil (text : List Char)
    (h : ∀ l ∈ linesOf (normalizeText text),
      ¬ isMdHeading l ∧ tocLineMatch (pyStrip l) = none) :
    segmentHeads text = [] := by
  simp only [segmentHeads]
  rw [parseTocChapters_nil _ (fun l hl => (h l hl).2), findBodyChapterStarts_nil,
    selectChapterHeads_nil _ (fun l hl => (h l hl).1)]
  rfl

theorem slicesGo_ne_nil (lines : List (List Char)) (s : Nat) (rest : List Nat) :
    slicesGo lines (s :: rest) ≠ [] := by
  cases rest <;> simp [slicesGo]

/-- The chunk texts cut at sorted in-range starts concatenate (with the
newline they were joined on) to the document suffix from the first cut. -/
theorem slices_join (lines : List (List Char)) :
    ∀ (rest : List Nat) (s : Nat), List.Chain' (· < ·) (s :: rest) →
      (∀ x ∈ s :: rest, x < lines.length) →
      List.intercalate ['\n'] (slicesGo lines (s :: rest)) = joinNl (lines.drop s) := by
  intro rest
  induction rest with
  | nil =>
    intro s _ _
    unfold slicesGo
    rw [intercalate_singleton]
  | cons s' rest ih =>
    intro s hchain hbound
    have hss : s < s' := (List.chain'_cons.1 hchain).1
    have hchain' := (List.chain'_cons.1 hchain).2
    rw [show slicesGo lines (s :: s' :: rest) =
      joinNl ((lines.drop s).take (s' - s)) :: slicesGo lines (s' :: rest) from rfl]
    rw [intercalate_cons_ne _ _ (slicesGo_ne_nil lines s' rest)]
    rw [ih s' hchain' (fun x hx => hbound x (by simp [hx]))]
    have h1 : s < lines.length := hbound s (by simp)
    have h2 : s' < lines.length := hbound s' (by simp)
    have hA : (lines.drop s).take (s' - s) ≠ [] := by
      intro hnil
      have hlen := congrArg List.length hnil
      simp [List.length_take, List.length_drop] at hlen
      omega
    have hB : lines.drop s' ≠ [] := by
      intro hnil
      have hlen := congrArg List.length hnil
      simp [List.length_drop] at hlen
      omega
    have hsplit : lines.drop s = (lines.drop s).take (s' - s) ++ lines.drop s' := by
      conv_lhs => rw [← List.take_append_drop (s' - s) (lines.drop s)]
      congr 1
      rw [List.drop_drop]
      congr 1
      omega
    unfold joinNl
    conv_rhs => rw [hsplit]
    rw [intercalate_append_ne _ hA hB]

/-- The loop can only be inside a TOC, or own saved chapters, while a
current chapter exists. -/
def StepInv (st : RState) : Prop :=
  (st.inToc = true → st.current ≠ none) ∧ (st.chapters ≠ [] → st.current ≠ none)

theorem rStep_current_some {tok : String → Nat} {st : RState} {line : List Char}
    (h : st.current ≠ none) : (rStep tok st line).current ≠ none := by
  simp only [rStep]
  split
  · split
    · cases hcur : st.current with
      | some c => simp
      | none => exact absurd hcur h
    · simp
  · cases hcur : st.current with
    | some c =>
      split
      · simp
      · rename_i heq
        exact Option.noConfusion heq
    | none => exact absurd hcur h

theorem stepInv_preserved {tok : String → Nat} {st : RState} {line : List Char}
    (h : StepInv st) : StepInv (rStep tok st line) := by
  simp only [rStep]
  split
  · split
    · rename_i hcond
      have hin : st.inToc = true := by
        simp only [Bool.and_eq_true] at hcond
        exact hcond.1.1
      have hc := h.1 hin
      cases hcur : st.current with
      | some c => exact ⟨fun _ => by simp, fun _ => by simp⟩
      | none => exact absurd hcur hc
    · exact ⟨fun _ => by simp, fun _ => by simp⟩
  · cases hcur : st.current with
    | some c =>
      split
      · exact ⟨fun _ => by simp, fun _ => by simp⟩
      · rename_i heq
        exact Option.noConfusion heq
    | none =>
      split
      · rename_i c' heq
        exact Option.noConfusion heq
      · split
        · split
          · exact ⟨fun _ => by simp, fun _ => by simp⟩
          · rename_i hch
            exact absurd hcur (h.2 hch)
        · exact h

theorem rStep_nonblank_some {tok : String → Nat} {st : RState} {line : List Char}
    (h : StepInv st) (hnb : pyStrip line ≠ []) :
    (rStep tok st line).current ≠ none := by
  simp only [rStep]
  split
  · split
    · rename_i hcond
      have hin : st.inToc = true := by
        simp only [Bool.and_eq_true] at hcond
        exact hcond.1.1
      have hc := h.1 hin
      cases hcur : st.current with
      | some c => simp
      | none => exact absurd hcur hc
    · simp
  · cases hcur : st.current with
    | some c =>
      split
      · simp
      · rename_i heq
        exact Option.noConfusion heq
    | none =>
      split
      · rename_i c' heq
        exact Option.noConfusion heq
      · split
        · simp
        · rename_i hch
          exact absurd hcur (h.2 hch)

theorem foldl_nonblank_some {tok : String → Nat} :
    ∀ (lines : List (List Char)) (st : RState), StepInv st →
      ((∃ l ∈ lines, pyStrip l ≠ []) ∨ st.current ≠ none) →
      ((lines.foldl (rStep tok) st).current ≠ none) := by
  intro lines
  induction lines with
  | nil =>
    intro st _ h
    rcases h with ⟨l, hl, _⟩ | h
    · exact absurd hl (List.not_mem_nil l)
    · exact h
  | cons l rest ih =>
    intro st hinv h
    rw [List.foldl_cons]
    refine ih _ (stepInv_preserved hinv) ?_
    by_cases hc : st.current = none
    · rcases h with ⟨l', hl', hnb⟩ | h
      · rcases List.mem_cons.1 hl' with rfl | hl'
        · exact Or.inr (rStep_nonblank_some hinv hnb)
        · exact Or.inl ⟨l', hl', hnb⟩
      · exact absurd hc h
    · exact Or.inr (rStep_current_some hc)

theorem saveCurrent_ne_nil {tok : String → Nat} {st : RState}
    (h : st.current ≠ none) : saveCurrent tok st ≠ [] := by
  unfold saveCurrent
  cases hcur : st.current with
  | none => exact absurd hcur h
  | some c => simp

/-- A chapter titled `前言/说明` is saved, or currently open. -/
def FrontInv (st : RState) : Prop :=
  (∃ ch ∈ st.chapters, ch.title = "前言/说明") ∨
  (∃ c, st.current = some c ∧ c.title = "前言/说明")

theorem frontInv_save {tok : String → Nat} {st : RState} (h : FrontInv st) :
    ∃ ch ∈ saveCurrent tok st, ch.title = "前言/说明" := by
  unfold saveCurrent
  rcases h with ⟨ch, hch, hti⟩ | ⟨c, hcur, hti⟩
  · cases hcur2 : st.current with
    | some c => exact ⟨ch, List.mem_append_left _ hch, hti⟩
    | none => exact ⟨ch, hch, hti⟩
  · rw [hcur]
    exact ⟨_, List.mem_append_right _ (List.mem_singleton.2 rfl), hti⟩

theorem frontInv_step {tok : String → Nat} {st : RState} {line : List Char}
    (h : FrontInv st) : FrontInv (rStep tok st line) := by
  rcases h with hleft | ⟨c, hcur, hti⟩
  · obtain ⟨ch, hch, hti⟩ := hleft
    rcases rStep_chapters tok st line with hc | hc
    · exact Or.inl ⟨ch, by rw [hc]; exact hch, hti⟩
    · refine Or.inl ⟨ch, ?_, hti⟩
      rw [hc]
      unfold saveCurrent
      cases hcur2 : st.current with
      | some c => exact List.mem_append_left _ hch
      | none => exact hch
  · simp only [rStep]
    split
    · split
      · cases hcur2 : st.current with
        | some c2 =>
          refine Or.inr ⟨c2, by simp, ?_⟩
          rw [hcur2] at hcur
          rw [Option.some.inj hcur]
          exact hti
        | none =>
          rw [hcur2] at hcur
          exact Option.noConfusion hcur
      · exact Or.inl (frontInv_save (Or.inr ⟨c, hcur, hti⟩))
    · cases hcur2 : st.current with
      | some c2 =>
        split
        · refine Or.inr ⟨c2, by simp, ?_⟩
          rw [hcur2] at hcur
          rw [Option.some.inj hcur]
          exact hti
        · rename_i heq
          exact Option.noConfusion heq
      | none =>
        rw [hcur2] at hcur
        exact Option.noConfusion hcur

theorem frontInv_foldl {tok : String → Nat} :
    ∀ (lines : List (List Char)) (st : RState),
      FrontInv st → FrontInv (lines.foldl (rStep tok) st) := by
  intro lines
  induction lines with
  | nil => intro st h; exact h
  | cons l rest ih => intro st h; exact ih _ (frontInv_step h)

/-! ## Claim C1 — coverage -/

/-- A document whose TOC repeats a chapter number: both TOC entries anchor
the same body line, so `segment_file` slices at duplicated head indices. -/
def c1DupDoc : List Char := "# 第1章 甲 3\n# 第1章 乙 4\n# 1 正文内容".data

/-- Claim C1, corrected: once a first heading is confirmed at line `s` and
the confirmed head lines are strictly increasing (distinct line indices —
as holds whenever no head line is duplicated), `segment_file`'s chunks
reconstruct the document from line `s` onward with no line dropped or
duplicated (their newline-joined concatenation is exactly the suffix of
the normalized document).  Two reachable failure modes limit the claim:
text before the first confirmed heading is written to no chunk by
`segment_file` — only `parse_chapters_by_regex` retains it, in a
synthetic leading chapter titled `前言/说明` (created whenever the
document's first line is non-blank and not a chapter heading) — and
duplicate TOC entries carrying the same chapter number anchor the same
body line, which duplicates the head index and emits an extra empty
chunk, so the joined chunks gain a spurious leading newline and are no
longer the exact suffix (see `C1_coverage_counterexample`). -/
theorem C1_coverage_amended :
    (∀ (text : List Char) (s : Nat) (rest : List Nat),
      (segmentHeads text).map (fun c => c.idx) = s :: rest →
      List.Chain' (· < ·) (s :: rest) →
      (∀ x ∈ s :: rest, x < (linesOf (normalizeText text)).length) →
      List.intercalate ['\n'] (segmentFile text) =
        joinNl ((linesOf (normalizeText text)).drop s)) ∧
    (∀ (tok : String → Nat) (text : List Char) (l0 : List Char) (rest : List (List Char)),
      linesOf text = l0 :: rest → pyStrip l0 ≠ [] → ¬ combinedMatch (pyStrip l0) →
      "前言/说明" ∈ (parseChaptersByRegex tok text).map (fun c => c.title)) := by
  constructor
  · intro text s rest hmap hchain hbound
    simp only [segmentFile]
    rw [if_neg (by intro h; rw [h] at hmap; exact List.noConfusion hmap)]
    rw [hmap]
    exact slices_join _ rest s hchain hbound
  · intro tok text l0 rest hlines hnb hm
    unfold parseChaptersByRegex
    rw [hlines, List.foldl_cons]
    have hfront : FrontInv (rStep tok ⟨[], none, [], 0, false⟩ l0) := by
      simp only [rStep]
      rw [if_neg hm]
      rw [if_pos hnb, if_pos trivial]
      exact Or.inr ⟨mkFront 0, rfl, rfl⟩
    obtain ⟨ch, hch, hti⟩ := frontInv_save (frontInv_foldl rest _ hfront)
    exact List.mem_map.2 ⟨ch, hch, hti⟩

/-- Witness for C1: on a concrete document the chunks rebuild the suffix
from the first heading, and the parser yields the synthetic front-matter
chapter for the preamble. -/
theorem C1_coverage_witness :
    List.intercalate ['\n'] (segmentFile "Intro\n# 第一章 A\nBody".data) =
      joinNl ((linesOf (normalizeText "Intro\n# 第一章 A\nBody".data)).drop 1) ∧
    "前言/说明" ∈ (parseChaptersByRegex lenTok "Intro\n# 第一章 A\nBody".data).map
      (fun c => c.title) := by
  constructor
  · exact C1_coverage_amended.1 "Intro\n# 第一章 A\nBody".data 1 [] (by decide)
      (List.chain'_singleton 1) (by decide)
  · exact C1_coverage_amended.2 lenTok "Intro\n# 第一章 A\nBody".data "Intro".data
      ["# 第一章 A".data, "Body".data] (by decide) (by decide) (by decide)

/-- The claim as stated is false twice over.  First, the non-blank line
`Intro` before the first confirmed heading appears in no chunk of
`segment_file`'s output — it is dropped, not retained.  Second,
reconstruction itself fails without distinct head lines: on `c1DupDoc`
the two TOC entries (both numbered 1) anchor the same body line 2, the
head indices come out `[2, 2]`, the slice `lines[2:2]` is an extra empty
chunk, and the newline-join of the chunks is the suffix with a spurious
leading newline rather than the suffix. -/
theorem C1_coverage_counterexample :
    segmentFile "Intro\n# 第一章 A\nBody".data = ["# 第一章 A\nBody".data] ∧
    "Intro".data ∈ linesOf "Intro\n# 第一章 A\nBody".data ∧
    pyStrip "Intro".data ≠ [] ∧
    "Intro".data ∉ linesOf "# 第一章 A\nBody".data ∧
    (segmentHeads c1DupDoc).map (fun c => c.idx) = [2, 2] ∧
    segmentFile c1DupDoc = [[], "# 1 正文内容".data] ∧
    List.intercalate ['\n'] (segmentFile c1DupDoc) = "\n# 1 正文内容".data ∧
    joinNl ((linesOf (normalizeText c1DupDoc)).drop 2) = "# 1 正文内容".data ∧
    ("\n# 1 正文内容".data : List Char) ≠ "# 1 正文内容".data := by
  exact ⟨by decide, by decide, by decide, by decide, by decide, by decide,
    by decide, by decide, by decide⟩

/-! ## Claim C8 — fallback totality -/

/-- Claim C8, corrected: a document with no heading-pattern line yields
from `segment_file` exactly one chunk equal to the full normalized input;
and `parse_chapters_by_regex` never returns an empty chapter list when the
input has at least one non-blank line — but for non-empty, all-blank input
it does return the empty list, and its own no-heading fallback chapter
carries the stripped text rather than the verbatim input. -/
theorem C8_fallback_amended :
    (∀ text : List Char,
      (∀ l ∈ linesOf (normalizeText text),
        ¬ isMdHeading l ∧ ¬ strongMatch (pyStrip l) ∧ tocLineMatch (pyStrip l) = none) →
      segmentFile text = [normalizeText text]) ∧
    (∀ (tok : String → Nat) (text : List Char),
      (∃ l ∈ linesOf text, pyStrip l ≠ []) → parseChaptersByRegex tok text ≠ []) := by
  constructor
  · intro text h
    simp only [segmentFile]
    rw [if_pos (segmentHeads_nil text (fun l hl => ⟨(h l hl).1, (h l hl).2.2⟩))]
  · intro tok text hex
    unfold parseChaptersByRegex
    refine saveCurrent_ne_nil (foldl_nonblank_some _ _ ?_ (Or.inl hex))
    exact ⟨by simp, by simp⟩

/-- Witness for C8: a two-line plain document segments to itself, and a
non-blank document parses to a nonempty chapter list. -/
theorem C8_fallback_witness :
    segmentFile "hello\nworld".data = ["hello\nworld".data] ∧
    parseChaptersByRegex lenTok "hi".data ≠ [] := by
  constructor
  · exact C8_fallback_amended.1 "hello\nworld".data (by decide)
  · exact C8_fallback_amended.2 lenTok "hi".data ⟨"hi".data, by decide, by decide⟩

/-- The claim as stated is false: the one-character document `"\n"` is
non-empty, yet `parse_chapters_by_regex` returns the empty chapter list
for it. -/
theorem C8_fallback_counterexample :
    parseChaptersByRegex lenTok "\n".data = [] ∧ ("\n".data : List Char) ≠ [] := by
  exact ⟨by decide, by decide⟩

end Tilian
